import Mathlib

/-!
# needle CPU backend: strided copies, reductions and matrix products

A shallow embedding of `src/ndarray_backend_cpu.cc` (namespace `needle::cpu`).

* An `AlignedArray` is a raw pointer together with an element count.  The C++ code
  indexes the pointer without any check, so the storage is modelled as a total map
  `Nat → α` from element index to element, next to the `size` field.  Array arguments
  of one call are distinct buffers: a store into `out` does not change what `a` reads.
* `scalar_t` is `float` in the source.  The kernels are embedded over an arbitrary
  element type `α`; the algebra a theorem needs (`Zero`, `Add`, `Mul`, an order) is
  stated as a type class of that theorem, so rounding is not modelled.
* `uint32_t` arithmetic is taken modulo `2 ^ 32` and `size_t` arithmetic modulo
  `2 ^ 64` wherever the source computes with values that can leave the range.
* A counted `for` loop is `forLoop body n s`: the body runs for `0, 1, …, n - 1`.
* Where a claim is about an undefined execution (the signed overflow of the counter of
  `Fill`, an access out of bounds or a division by zero in `Compact`) the kernel is
  embedded with an `Option` result: `none` marks the undefined execution.
* `lambda.h` is not among the sources: the macros `LAMBDA_…` the elementwise kernels
  are instantiated with are modelled from the specification.
-/

namespace Needle

/-! ## Machine constants -/

/-- Number of values of a `uint32_t`. -/
def U32 : Nat := 2 ^ 32

/-- Number of values of a `size_t` (64-bit target). -/
def U64 : Nat := 2 ^ 64

/-- Tile edge, `#define TILE 8`. -/
def TILE : Nat := 8

/-! ## Memory -/

/-- Store `v` at index `i` of a flat memory: the assignment `p[i] = v`. -/
def write {α : Type} (mem : Nat → α) (i : Nat) (v : α) : Nat → α :=
  fun k => if k = i then v else mem k

/-- The struct `AlignedArray`: a pointer to the elements and the element count. -/
structure AlignedArray (α : Type) where
  /-- Contents behind `ptr`, by element index. -/
  ptr : Nat → α
  /-- The field `size`. -/
  size : Nat

/-- The statement `out->ptr[i] = v`. -/
def AlignedArray.set {α : Type} (out : AlignedArray α) (i : Nat) (v : α) : AlignedArray α :=
  ⟨write out.ptr i v, out.size⟩

/-- A counted loop `for (k = 0; k < n; k++) s = body k s`. -/
def forLoop {σ : Type} (body : Nat → σ → σ) : Nat → σ → σ
  | 0, s => s
  | n + 1, s => body n (forLoop body n s)

/-! ## Strided index translation (Compact, EwiseSetitem, ScalarSetitem) -/

/-- The element count the three strided kernels compute:
`uint32_t n = 1; for_each(shape, [&](uint32_t x) { n *= x; })`, a 32-bit product. -/
def shapeCount (shape : List Nat) : Nat :=
  shape.foldl (fun n x => n * x % U32) 1

/-- The inner loop shared by the three strided kernels,
`for (int j = shape.size() - 1; j >= 0; j--)
   src += rem % shape[j] * strides[j], rem /= shape[j];`
The first argument is `j + 1` (so the loop starts at `shape.length` and stops at `0`);
`src` is a `size_t`, `rem` and the product `rem % shape[j] * strides[j]` are `uint32_t`.
When `shape[j] = 0` the C++ code divides by zero, and when `strides` is shorter than
`shape` it reads past the vector (both undefined); here `%` and `/` by zero take their
Lean values and a missing stride reads as `0`. -/
def stridedLoop (shape strides : List Nat) : Nat → Nat → Nat → Nat
  | 0, src, _ => src
  | j + 1, src, rem =>
      stridedLoop shape strides j
        ((src + rem % shape.getD j 0 * strides.getD j 0 % U32) % U64)
        (rem / shape.getD j 0)

/-- Physical offset the kernels compute for the logical index `i`:
`size_t src = offset; uint32_t rem = i;` followed by the inner loop. -/
def stridedOffset (shape strides : List Nat) (offset i : Nat) : Nat :=
  stridedLoop shape strides shape.length offset i

/-- `Compact(a, out, shape, strides, offset)`. -/
def Compact {α : Type} (a out : AlignedArray α) (shape strides : List Nat) (offset : Nat) :
    AlignedArray α :=
  forLoop (fun i out => out.set i (a.ptr (stridedOffset shape strides offset i)))
    (shapeCount shape) out

/-- `EwiseSetitem(a, out, shape, strides, offset)`. -/
def EwiseSetitem {α : Type} (a out : AlignedArray α) (shape strides : List Nat) (offset : Nat) :
    AlignedArray α :=
  forLoop (fun i out => out.set (stridedOffset shape strides offset i) (a.ptr i))
    (shapeCount shape) out

/-- `ScalarSetitem(size, val, out, shape, strides, offset)`; the argument `size` is not
read by the body. -/
def ScalarSetitem {α : Type} (_size : Nat) (val : α) (out : AlignedArray α)
    (shape strides : List Nat) (offset : Nat) : AlignedArray α :=
  forLoop (fun i out => out.set (stridedOffset shape strides offset i) val)
    (shapeCount shape) out

/-! ## The view of the specification -/

/-- Row-major decomposition of a linear index against the extents listed from the last
dimension to the first: repeated modulo and division. -/
def unravelRev : List Nat → Nat → List Nat
  | [], _ => []
  | d :: ds, r => r % d :: unravelRev ds (r / d)

/-- The multi-index of the logical index `i` in a view of the given shape, as the
specification describes it: decompose `i` by repeated division/modulo against `shape`,
from the last dimension (fastest varying) to the first. -/
def multiIndex (shape : List Nat) (i : Nat) : List Nat :=
  (unravelRev shape.reverse i).reverse

/-- The physical offset of a multi-index: `offset + Σ_j idx[j] * strides[j]`. -/
def physOffset (offset : Nat) (idx strides : List Nat) : Nat :=
  offset + (List.zipWith (· * ·) idx strides).sum

/-- A valid multi-index of a shape: one component per dimension, each below its extent. -/
def ValidIndex (idx shape : List Nat) : Prop :=
  List.Forall₂ (· < ·) idx shape

/-- Row-major linear index of a multi-index, both lists given from the last dimension
to the first. -/
def ravelRev : List Nat → List Nat → Nat
  | x :: xs, d :: ds => x + d * ravelRev xs ds
  | _, _ => 0

/-- Row-major linear index of a multi-index: `Σ_j idx[j] * Π_{k > j} shape[k]`. -/
def ravel (shape idx : List Nat) : Nat :=
  ravelRev idx.reverse shape.reverse

/-- The view can be walked without leaving the 32-bit range: the number of logical
elements fits a `uint32_t`, and so does the largest product `idx[j] * strides[j]` of
every dimension. -/
def Fits32 (shape strides : List Nat) : Prop :=
  shape.prod < U32 ∧ ∀ t ∈ List.zipWith (fun d s => (d - 1) * s) shape strides, t < U32

instance (shape strides : List Nat) : Decidable (Fits32 shape strides) := by
  unfold Fits32; infer_instance

/-- The view invariant of the data model: every valid multi-index lands inside a buffer
of `size` elements. -/
def InBounds (shape strides : List Nat) (offset size : Nat) : Prop :=
  ∀ idx, ValidIndex idx shape → physOffset offset idx strides < size

/-- The physical offsets the view reaches. -/
def Reachable (shape strides : List Nat) (offset p : Nat) : Prop :=
  ∃ idx, ValidIndex idx shape ∧ p = physOffset offset idx strides

/-! ## Matrix multiplication -/

/-- `Matmul(a, b, out, m, n, p)`, the three-loop product.  The indices are `size_t`
values computed from the `uint32_t` arguments `m`, `n`, `p`, so they stay below `2 ^ 64`
and are embedded without reduction. -/
def Matmul {α : Type} [Zero α] [Add α] [Mul α] (a b out : AlignedArray α) (m n p : Nat) :
    AlignedArray α :=
  forLoop (fun i out =>
    forLoop (fun k out =>
      out.set (i * p + k)
        (forLoop (fun j sum => sum + a.ptr (i * n + j) * b.ptr (j * p + k)) n 0))
      p out)
    m out

/-- A raw element pointer `float *`: the memory it points into and the index of the
element it points at. -/
structure Ptr (α : Type) where
  /-- The memory behind the pointer. -/
  mem : Nat → α
  /-- Index of the element `p[0]`. -/
  base : Nat

/-- The read `p[k]`. -/
def Ptr.get {α : Type} (p : Ptr α) (k : Nat) : α := p.mem (p.base + k)

/-- The store `p[k] = v`. -/
def Ptr.set {α : Type} (p : Ptr α) (k : Nat) (v : α) : Ptr α :=
  ⟨write p.mem (p.base + k) v, p.base⟩

/-- The macro `TILE_BASE_ADDR(b, r, c, i, j)`, which is `b + (i * c + j * TILE) * TILE`. -/
def TILE_BASE_ADDR {α : Type} (b : Nat → α) (_r c i j : Nat) : Ptr α :=
  ⟨b, (i * c + j * TILE) * TILE⟩

/-- `AlignedDot(a, b, out)`: the result is the pointer `out` with the memory behind it
after the call.  The three pointers are `__restrict`, so the stores through `out` do
not change what `a` and `b` read. -/
def AlignedDot {α : Type} [Add α] [Mul α] (a b out : Ptr α) : Ptr α :=
  forLoop (fun i out =>
    forLoop (fun k out =>
      forLoop (fun j out =>
        out.set (i * TILE + k)
          (out.get (i * TILE + k) + a.get (i * TILE + j) * b.get (j * TILE + k)))
        TILE out)
      TILE out)
    TILE out

/-- `memset(p, 0, count * ELEM_SIZE)`: `count` elements from `p` on become `0`
(all-zero bytes are the `float` zero). -/
def memsetZero {α : Type} [Zero α] (p : Ptr α) (count : Nat) : Ptr α :=
  forLoop (fun k p => p.set k 0) count p

/-- The body of the two outer loops of `MatmulTiled` for the output tile `(i, k)`:
the `memset` of the tile followed by the loop over `j` that calls `AlignedDot`. -/
def MatmulTiled.tile {α : Type} [Zero α] [Add α] [Mul α] (a b : AlignedArray α)
    (m n p i k : Nat) (out : AlignedArray α) : AlignedArray α :=
  forLoop (fun j out =>
    (⟨(AlignedDot (TILE_BASE_ADDR a.ptr m n i j) (TILE_BASE_ADDR b.ptr n p j k)
        (TILE_BASE_ADDR out.ptr m p i k)).mem, out.size⟩ : AlignedArray α))
    (n / TILE)
    ⟨(memsetZero (TILE_BASE_ADDR out.ptr m p i k) (TILE * TILE)).mem, out.size⟩

/-- `MatmulTiled(a, b, out, m, n, p)`. -/
def MatmulTiled {α : Type} [Zero α] [Add α] [Mul α] (a b out : AlignedArray α) (m n p : Nat) :
    AlignedArray α :=
  forLoop (fun i out =>
    forLoop (fun k out => MatmulTiled.tile a b m n p i k out) (p / TILE) out)
    (m / TILE) out

/-- The tiled 4D layout of a row-major `r × c` matrix: tile `(I, J)` is stored
contiguously from `(I * c + J * TILE) * TILE` on, row-major inside the tile. -/
def IsTiledLayout {α : Type} (r c : Nat) (flat tiled : Nat → α) : Prop :=
  ∀ I, I < r / TILE → ∀ J, J < c / TILE → ∀ ii, ii < TILE → ∀ jj, jj < TILE →
    tiled ((I * c + J * TILE) * TILE + (ii * TILE + jj))
      = flat ((I * TILE + ii) * c + (J * TILE + jj))

instance {α : Type} [DecidableEq α] (r c : Nat) (flat tiled : Nat → α) :
    Decidable (IsTiledLayout r c flat tiled) := by
  unfold IsTiledLayout; infer_instance

/-- Pre-blocking of a row-major matrix with `c` columns into the tiled layout: the
element stored at position `q` of the tiled buffer. -/
def toTiled {α : Type} (c : Nat) (flat : Nat → α) : Nat → α :=
  fun q =>
    flat ((q / (c * TILE) * TILE + q % (c * TILE) % (TILE * TILE) / TILE) * c
      + (q % (c * TILE) / (TILE * TILE) * TILE + q % TILE))

/-! ## Reductions -/

/-- `std::accumulate(mem + first, mem + last, init)`: the elements are added to `init`
one after the other.  (For `last < first` the C++ range is invalid; the loop then runs
zero times here.) -/
def accumulate {α : Type} [Add α] (mem : Nat → α) (first last : Nat) (init : α) : α :=
  forLoop (fun k acc => acc + mem (first + k)) (last - first) init

/-- `std::max_element(mem + first, mem + last)`, as the index of the element found:
`last` for an empty range, else the first largest element, found by keeping
`largest` and replacing it whenever `mem[largest] < mem[it]`. -/
def max_element {α : Type} [LT α] [DecidableRel (fun (x y : α) => x < y)] (mem : Nat → α)
    (first last : Nat) : Nat :=
  if first = last then last
  else forLoop (fun k largest =>
      if mem largest < mem (first + 1 + k) then first + 1 + k else largest)
    (last - first - 1) first

/-- `ReduceMax(a, out, reduce_size)`.  The block bounds `i * reduce_size` and
`(i + 1) * reduce_size` are `size_t` products. -/
def ReduceMax {α : Type} [LT α] [DecidableRel (fun (x y : α) => x < y)]
    (a out : AlignedArray α) (reduce_size : Nat) : AlignedArray α :=
  forLoop (fun i out =>
    out.set i (a.ptr (max_element a.ptr (i * reduce_size % U64) ((i + 1) * reduce_size % U64))))
    out.size out

/-- `ReduceSum(a, out, reduce_size)`.  The block bounds `i * reduce_size` and
`(i + 1) * reduce_size` are `size_t` products; the sum starts from `(scalar_t)0`. -/
def ReduceSum {α : Type} [Zero α] [Add α] (a out : AlignedArray α) (reduce_size : Nat) :
    AlignedArray α :=
  forLoop (fun i out =>
    out.set i (accumulate a.ptr (i * reduce_size % U64) ((i + 1) * reduce_size % U64) 0))
    out.size out

/-! ## Compact views -/

/-- The row-major strides a shape implies: `strides[j] = Π_{k > j} shape[k]`. -/
def rowMajorStrides : List Nat → List Nat
  | [] => []
  | _ :: ds => ds.prod :: rowMajorStrides ds

/-! ## Elementwise kernels -/

/-- The macro `FUNC_EWISE_UNARY(func, a, out, fn)`:
`for (size_t i = 0; i < a.size; i++) out->ptr[i] = fn(a.ptr[i]);` -/
def FUNC_EWISE_UNARY {α : Type} (fn : α → α) (a out : AlignedArray α) : AlignedArray α :=
  forLoop (fun i out => out.set i (fn (a.ptr i))) a.size out

/-- The macro `FUNC_EWISE_BINARY(func, a, b, out, fn)`:
`for (size_t i = 0; i < a.size; i++) out->ptr[i] = fn(a.ptr[i], b.ptr[i]);` -/
def FUNC_EWISE_BINARY {α : Type} (fn : α → α → α) (a b out : AlignedArray α) :
    AlignedArray α :=
  forLoop (fun i out => out.set i (fn (a.ptr i) (b.ptr i))) a.size out

/-- The macro `FUNC_SCALAR(func, a, val, out, fn)`:
`for (size_t i = 0; i < a.size; i++) out->ptr[i] = fn(a.ptr[i], val);` -/
def FUNC_SCALAR {α : Type} (fn : α → α → α) (a : AlignedArray α) (val : α)
    (out : AlignedArray α) : AlignedArray α :=
  forLoop (fun i out => out.set i (fn (a.ptr i) val)) a.size out

/-- Modelled from the spec: the macro `LAMBDA_ADD` of `lambda.h`, a header that is not
among the sources.  The specification lists "add" among the functions `f` of the binary
kernels `out[i] = f(a[i], b[i])`. -/
def LAMBDA_ADD {α : Type} [Add α] (x y : α) : α := x + y

/-- Modelled from the spec: the macro `LAMBDA_MUL` of `lambda.h`, a header that is not
among the sources.  The specification lists "multiply" among the functions `f` of the
kernels `out[i] = f(a[i], b[i])` and `out[i] = f(a[i], c)`. -/
def LAMBDA_MUL {α : Type} [Mul α] (x y : α) : α := x * y

/-- Modelled from the spec: the macro `LAMBDA_EQ` of `lambda.h`, a header that is not
among the sources.  The specification lists "equality-test" among the binary
functions and says that the comparison kernels produce the element type's
representation of a boolean, `1.0` or `0.0`. -/
def LAMBDA_EQ {α : Type} [DecidableEq α] [Zero α] [One α] (x y : α) : α :=
  if x = y then 1 else 0

/-- Modelled from the spec: the macro `LAMBDA_GE` of `lambda.h`, a header that is not
among the sources.  The specification lists "greater-or-equal-test" among the binary
functions and says that the comparison kernels produce the element type's
representation of a boolean, `1.0` or `0.0`. -/
def LAMBDA_GE {α : Type} [LE α] [DecidableRel (fun (x y : α) => x ≤ y)] [Zero α] [One α]
    (x y : α) : α :=
  if y ≤ x then 1 else 0

/-- `FUNC_EWISE_BINARY(EwiseAdd, a, b, out, LAMBDA_ADD)`. -/
def EwiseAdd {α : Type} [Add α] (a b out : AlignedArray α) : AlignedArray α :=
  FUNC_EWISE_BINARY LAMBDA_ADD a b out

/-- `FUNC_SCALAR(ScalarMul, a, val, out, LAMBDA_MUL)`. -/
def ScalarMul {α : Type} [Mul α] (a : AlignedArray α) (val : α) (out : AlignedArray α) :
    AlignedArray α :=
  FUNC_SCALAR LAMBDA_MUL a val out

/-- `FUNC_EWISE_BINARY(EwiseEq, a, b, out, LAMBDA_EQ)`. -/
def EwiseEq {α : Type} [DecidableEq α] [Zero α] [One α] (a b out : AlignedArray α) :
    AlignedArray α :=
  FUNC_EWISE_BINARY LAMBDA_EQ a b out

/-- `FUNC_EWISE_BINARY(EwiseGe, a, b, out, LAMBDA_GE)`. -/
def EwiseGe {α : Type} [LE α] [DecidableRel (fun (x y : α) => x ≤ y)] [Zero α] [One α]
    (a b out : AlignedArray α) : AlignedArray α :=
  FUNC_EWISE_BINARY LAMBDA_GE a b out

/-! ## Fill -/

/-- Largest value of an `int` (32 bits). -/
def INT_MAX : Nat := 2 ^ 31 - 1

/-- `Fill(out, val)`: `for (int i = 0; i < out->size; i++) out->ptr[i] = val;`.
The counter is an `int` compared with the `size_t` field `out->size`.  Iteration `k`
stores `out->ptr[k] = val` and then increments `i`; at `i = INT_MAX` the increment is a
signed overflow, which C++ leaves undefined: the result is then `none`. -/
def Fill {α : Type} (out : AlignedArray α) (val : α) : Option (AlignedArray α) :=
  forLoop (fun k st => st.bind (fun out => if k < INT_MAX then some (out.set k val) else none))
    out.size (some out)

/-! ## Compact with every access checked -/

/-- The inner loop of the strided kernels with its undefined steps made explicit: the
result is `none` when `shape[j]` or `strides[j]` does not exist and when the modulo and
division by `shape[j]` would be by zero. -/
def stridedLoopChecked (shape strides : List Nat) : Nat → Nat → Nat → Option Nat
  | 0, src, _ => some src
  | j + 1, src, rem =>
    match shape[j]?, strides[j]? with
    | some d, some s =>
      if d = 0 then none
      else stridedLoopChecked shape strides j ((src + rem % d * s % U32) % U64) (rem / d)
    | _, _ => none

/-- The index components `rem % shape[j]` the inner loop computes, in the order of
execution: the component of the last dimension first. -/
def stridedComponents (shape : List Nat) : Nat → Nat → List Nat
  | 0, _ => []
  | j + 1, rem => rem % shape.getD j 0 :: stridedComponents shape j (rem / shape.getD j 0)

/-- `Compact` with every access checked: the result is `none` as soon as the inner loop
is undefined, a read `a.ptr[src]` has `src ≥ a.size`, or a store `out->ptr[i]` has
`i ≥ out->size`. -/
def CompactChecked {α : Type} (a out : AlignedArray α) (shape strides : List Nat)
    (offset : Nat) : Option (AlignedArray α) :=
  forLoop (fun i st => st.bind (fun out =>
      (stridedLoopChecked shape strides shape.length offset i).bind (fun src =>
        if src < a.size ∧ i < out.size then some (out.set i (a.ptr src)) else none)))
    (shapeCount shape) (some out)

/-! # Theorems -/

/-! ## Loops and stores -/

theorem write_same {α : Type} (mem : Nat → α) (i : Nat) (v : α) : write mem i v i = v := by
  simp [write]

theorem write_other {α : Type} (mem : Nat → α) (i : Nat) (v : α) (k : Nat) (h : k ≠ i) :
    write mem i v k = mem k := by
  simp [write, h]

/-- A loop whose body never changes an observation leaves the observation as it was. -/
theorem forLoop_frame {σ β : Type} (obs : σ → β) (body : Nat → σ → σ) (n : Nat)
    (h : ∀ i, i < n → ∀ s, obs (body i s) = obs s) (s : σ) :
    obs (forLoop body n s) = obs s := by
  induction n with
  | zero => rfl
  | succ n ih =>
    show obs (body n (forLoop body n s)) = obs s
    rw [h n (Nat.lt_succ_self n)]
    exact ih (fun i hi => h i (Nat.lt_succ_of_lt hi))

/-- When only iteration `i0` changes an observation, the loop leaves there what
iteration `i0` produced. -/
theorem forLoop_last {σ β : Type} (obs : σ → β) (body : Nat → σ → σ) (n i0 : Nat)
    (hi0 : i0 < n) (h : ∀ i, i0 < i → i < n → ∀ s, obs (body i s) = obs s) (s : σ) :
    obs (forLoop body n s) = obs (body i0 (forLoop body i0 s)) := by
  induction n with
  | zero => omega
  | succ n ih =>
    show obs (body n (forLoop body n s)) = _
    rcases Nat.lt_or_ge i0 n with hlt | hge
    · rw [h n hlt (Nat.lt_succ_self n)]
      exact ih hlt (fun i h1 h2 => h i h1 (Nat.lt_succ_of_lt h2))
    · have : i0 = n := by omega
      subst this
      rfl

/-- The stores of a scatter loop keep the element count. -/
theorem scatter_size {α : Type} (f : Nat → Nat) (g : Nat → α) (n : Nat) (out : AlignedArray α) :
    (forLoop (fun i out => out.set (f i) (g i)) n out).size = out.size :=
  forLoop_frame (fun s => s.size) (fun i out => out.set (f i) (g i)) n (fun _ _ _ => rfl) out

/-- A scatter loop leaves alone every position that is not a target. -/
theorem scatter_untouched {α : Type} (f : Nat → Nat) (g : Nat → α) (n : Nat)
    (out : AlignedArray α) (q : Nat) (h : ∀ i, i < n → f i ≠ q) :
    (forLoop (fun i out => out.set (f i) (g i)) n out).ptr q = out.ptr q :=
  forLoop_frame (fun s => s.ptr q) (fun i out => out.set (f i) (g i)) n
    (fun i hi s => write_other s.ptr (f i) (g i) q (fun e => h i hi e.symm)) out

/-- In a scatter loop the last store to a position wins. -/
theorem scatter_last {α : Type} (f : Nat → Nat) (g : Nat → α) (n : Nat)
    (out : AlignedArray α) (i0 : Nat) (hi0 : i0 < n)
    (h : ∀ i, i0 < i → i < n → f i ≠ f i0) :
    (forLoop (fun i out => out.set (f i) (g i)) n out).ptr (f i0) = g i0 := by
  rw [forLoop_last (fun s => s.ptr (f i0)) (fun i out => out.set (f i) (g i)) n i0 hi0
    (fun i h1 h2 s => write_other s.ptr (f i) (g i) (f i0) (fun e => h i h1 h2 e.symm)) out]
  exact write_same _ _ _

/-- Every target of a scatter loop ends up holding the value of some store to it. -/
theorem scatter_some {α : Type} (f : Nat → Nat) (g : Nat → α) (n : Nat)
    (out : AlignedArray α) (q : Nat) (h : ∃ i, i < n ∧ f i = q) :
    ∃ i, i < n ∧ f i = q ∧ (forLoop (fun i out => out.set (f i) (g i)) n out).ptr q = g i := by
  induction n with
  | zero => obtain ⟨i, hi, _⟩ := h; omega
  | succ n ih =>
    by_cases hn : f n = q
    · exact ⟨n, Nat.lt_succ_self n, hn, by
        show write _ (f n) (g n) q = g n
        rw [← hn]; exact write_same _ _ _⟩
    · obtain ⟨i, hi, hq⟩ := h
      have hin : i < n := by
        rcases Nat.lt_or_ge i n with h1 | h1
        · exact h1
        · have : i = n := by omega
          subst this; exact absurd hq hn
      obtain ⟨k, hk, hkq, hv⟩ := ih ⟨i, hin, hq⟩
      refine ⟨k, Nat.lt_succ_of_lt hk, hkq, ?_⟩
      show write _ (f n) (g n) q = g k
      rw [write_other _ _ _ _ (fun e => hn e.symm)]
      exact hv

/-! ## The 32-bit element count -/

theorem shapeCount_fold (shape : List Nat) (acc : Nat) :
    shape.foldl (fun n x => n * x % U32) acc % U32 = acc * shape.prod % U32 := by
  induction shape generalizing acc with
  | nil => simp
  | cons d ds ih =>
    simp only [List.foldl_cons, List.prod_cons]
    rw [ih, Nat.mod_mul_mod, Nat.mul_assoc]

theorem shapeCount_lt (shape : List Nat) : shapeCount shape < U32 := by
  unfold shapeCount
  rcases List.eq_nil_or_concat shape with h | ⟨l, d, h⟩
  · subst h; decide
  · subst h
    rw [List.concat_eq_append, List.foldl_append]
    exact Nat.mod_lt _ (by decide)

/-- The loop bound is the product of the extents reduced modulo `2 ^ 32`. -/
theorem shapeCount_eq_mod (shape : List Nat) : shapeCount shape = shape.prod % U32 := by
  have h := shapeCount_fold shape 1
  rw [Nat.one_mul] at h
  rw [← h]
  exact (Nat.mod_eq_of_lt (shapeCount_lt shape)).symm

theorem shapeCount_eq_prod (shape : List Nat) (h : shape.prod < U32) :
    shapeCount shape = shape.prod := by
  rw [shapeCount_eq_mod, Nat.mod_eq_of_lt h]

/-! ## Multi-indices -/

theorem unravelRev_length (ds : List Nat) (r : Nat) : (unravelRev ds r).length = ds.length := by
  induction ds generalizing r with
  | nil => rfl
  | cons d ds ih => simp [unravelRev, ih]

theorem multiIndex_length (shape : List Nat) (i : Nat) :
    (multiIndex shape i).length = shape.length := by
  simp [multiIndex, unravelRev_length]

theorem unravelRev_valid (ds : List Nat) (r : Nat) (hpos : ∀ d ∈ ds, 0 < d) :
    List.Forall₂ (· < ·) (unravelRev ds r) ds := by
  induction ds generalizing r with
  | nil => exact List.Forall₂.nil
  | cons d ds ih =>
    exact List.Forall₂.cons (Nat.mod_lt _ (hpos d (List.mem_cons_self d ds)))
      (ih _ (fun e he => hpos e (List.mem_cons_of_mem d he)))

theorem ravelRev_unravelRev (ds : List Nat) (r : Nat) (h : r < ds.prod) :
    ravelRev (unravelRev ds r) ds = r := by
  induction ds generalizing r with
  | nil => simp at h; subst h; rfl
  | cons d ds ih =>
    simp only [unravelRev, ravelRev]
    rw [List.prod_cons] at h
    rw [ih _ (Nat.div_lt_of_lt_mul h)]
    exact Nat.mod_add_div r d

theorem ravelRev_lt (xs ds : List Nat) (h : List.Forall₂ (· < ·) xs ds) :
    ravelRev xs ds < ds.prod := by
  induction h with
  | nil => simp [ravelRev]
  | @cons x d xs ds hx _ ih =>
    simp only [ravelRev, List.prod_cons]
    calc x + d * ravelRev xs ds < d + d * ravelRev xs ds := by omega
      _ = d * (ravelRev xs ds + 1) := by ring
      _ ≤ d * ds.prod := Nat.mul_le_mul_left d ih

theorem unravelRev_ravelRev (xs ds : List Nat) (h : List.Forall₂ (· < ·) xs ds) :
    unravelRev ds (ravelRev xs ds) = xs := by
  induction h with
  | nil => rfl
  | @cons x d xs ds hx _ ih =>
    simp only [ravelRev, unravelRev]
    have hd : 0 < d := by omega
    rw [Nat.add_mul_mod_self_left, Nat.mod_eq_of_lt hx, Nat.add_mul_div_left _ _ hd,
      Nat.div_eq_of_lt hx, Nat.zero_add, ih]

theorem prod_pos_of_lt {shape : List Nat} {i : Nat} (h : i < shape.prod) :
    ∀ d ∈ shape, 0 < d := by
  intro d hd
  rcases Nat.eq_zero_or_pos d with h0 | h0
  · subst h0
    rw [List.prod_eq_zero hd] at h
    omega
  · exact h0

/-- The multi-index of a logical index is a valid index of the shape. -/
theorem multiIndex_valid (shape : List Nat) (i : Nat) (hpos : ∀ d ∈ shape, 0 < d) :
    ValidIndex (multiIndex shape i) shape := by
  unfold ValidIndex multiIndex
  rw [← List.forall₂_reverse_iff, List.reverse_reverse]
  exact unravelRev_valid _ _ (fun d hd => hpos d (List.mem_reverse.mp hd))

/-- The multi-index is the row-major one: ravelling it gives the logical index back. -/
theorem ravel_multiIndex (shape : List Nat) (i : Nat) (h : i < shape.prod) :
    ravel shape (multiIndex shape i) = i := by
  unfold ravel multiIndex
  rw [List.reverse_reverse]
  exact ravelRev_unravelRev _ _ (by rw [List.prod_reverse]; exact h)

/-- Every valid multi-index is the multi-index of a logical index below the product. -/
theorem multiIndex_ravel (shape idx : List Nat) (h : ValidIndex idx shape) :
    ravel shape idx < shape.prod ∧ multiIndex shape (ravel shape idx) = idx := by
  have h2 : List.Forall₂ (· < ·) idx.reverse shape.reverse := List.forall₂_reverse_iff.mpr h
  constructor
  · have := ravelRev_lt _ _ h2
    rw [List.prod_reverse] at this
    exact this
  · unfold ravel multiIndex
    rw [unravelRev_ravelRev _ _ h2, List.reverse_reverse]

/-! ## The inner loop computes the physical offset -/

theorem take_succ_reverse (l : List Nat) (j : Nat) (h : j < l.length) :
    (l.take (j + 1)).reverse = l.getD j 0 :: (l.take j).reverse := by
  rw [List.take_succ, List.getElem?_eq_getElem h, List.getD_eq_getElem l 0 h]
  simp

/-- Without wrap-around the first `j` dimensions, walked from dimension `j - 1` down to
dimension `0`, add the products of the index components and the strides to `src`. -/
theorem stridedLoop_eq (shape strides : List Nat) (hlen : strides.length = shape.length)
    (j : Nat) (hj : j ≤ shape.length) (src rem : Nat)
    (h32 : ∀ t ∈ List.zipWith (· * ·) (unravelRev (shape.take j).reverse rem)
      (strides.take j).reverse, t < U32)
    (h64 : src + (List.zipWith (· * ·) (unravelRev (shape.take j).reverse rem)
      (strides.take j).reverse).sum < U64) :
    stridedLoop shape strides j src rem =
      src + (List.zipWith (· * ·) (unravelRev (shape.take j).reverse rem)
        (strides.take j).reverse).sum := by
  induction j generalizing src rem with
  | zero => simp [stridedLoop, unravelRev]
  | succ j ih =>
    have hj1 : j < shape.length := hj
    have hj2 : j < strides.length := by omega
    rw [take_succ_reverse shape j hj1, take_succ_reverse strides j hj2] at h32 h64 ⊢
    simp only [unravelRev, List.zipWith_cons_cons, List.sum_cons, List.mem_cons,
      forall_eq_or_imp] at h32 h64 ⊢
    obtain ⟨ht, hrest⟩ := h32
    have e1 : rem % shape.getD j 0 * strides.getD j 0 % U32
        = rem % shape.getD j 0 * strides.getD j 0 := Nat.mod_eq_of_lt ht
    have e2 : (src + rem % shape.getD j 0 * strides.getD j 0) % U64
        = src + rem % shape.getD j 0 * strides.getD j 0 := Nat.mod_eq_of_lt (by omega)
    show stridedLoop shape strides j _ _ = _
    rw [e1, e2, ih (Nat.le_of_lt hj1) _ _ hrest (by omega)]
    omega

theorem sum_zipWith_reverse (xs ss : List Nat) (h : xs.length = ss.length) :
    (List.zipWith (· * ·) xs.reverse ss).sum = (List.zipWith (· * ·) xs ss.reverse).sum := by
  have h2 : xs.length = ss.reverse.length := by simp [h]
  rw [← List.sum_reverse (List.zipWith (· * ·) xs ss.reverse), List.reverse_zipWith h2,
    List.reverse_reverse]

theorem mem_zipWith_reverse (xs ss : List Nat) (h : xs.length = ss.length) (t : Nat) :
    t ∈ List.zipWith (· * ·) xs ss.reverse ↔ t ∈ List.zipWith (· * ·) xs.reverse ss := by
  have h2 : xs.length = ss.reverse.length := by simp [h]
  rw [← List.mem_reverse, List.reverse_zipWith h2, List.reverse_reverse]

/-- Components below their extents keep every product below the largest product of
its dimension. -/
theorem zipWith_lt_of_corner (xs ds ss : List Nat) (hv : List.Forall₂ (· < ·) xs ds)
    (bound : Nat) (hc : ∀ t ∈ List.zipWith (fun d s => (d - 1) * s) ds ss, t < bound) :
    ∀ t ∈ List.zipWith (· * ·) xs ss, t < bound := by
  induction hv generalizing ss with
  | nil => simp
  | @cons x d xs ds hx _ ih =>
    cases ss with
    | nil => simp
    | cons s ss =>
      simp only [List.zipWith_cons_cons, List.mem_cons, forall_eq_or_imp] at hc ⊢
      refine ⟨?_, ih ss hc.2⟩
      have : x * s ≤ (d - 1) * s := Nat.mul_le_mul_right s (by omega)
      omega

/-- The offset the kernels compute is the physical offset of the multi-index whenever
the view fits the 32-bit range and the offset fits a `size_t`. -/
theorem stridedOffset_eq (shape strides : List Nat) (offset i : Nat)
    (hlen : strides.length = shape.length) (hpos : ∀ d ∈ shape, 0 < d)
    (hfit : ∀ t ∈ List.zipWith (fun d s => (d - 1) * s) shape strides, t < U32)
    (h64 : physOffset offset (multiIndex shape i) strides < U64) :
    stridedOffset shape strides offset i = physOffset offset (multiIndex shape i) strides := by
  have hl : (unravelRev shape.reverse i).length = strides.length := by
    rw [unravelRev_length, List.length_reverse, hlen]
  have hsum : (List.zipWith (· * ·) (multiIndex shape i) strides).sum
      = (List.zipWith (· * ·) (unravelRev shape.reverse i) strides.reverse).sum :=
    sum_zipWith_reverse _ _ hl
  unfold physOffset at h64 ⊢
  rw [hsum] at h64 ⊢
  have hv := multiIndex_valid shape i hpos
  have h32 : ∀ t ∈ List.zipWith (· * ·) (unravelRev shape.reverse i) strides.reverse,
      t < U32 := by
    intro t ht
    rw [mem_zipWith_reverse _ _ hl] at ht
    exact zipWith_lt_of_corner _ _ _ hv U32 hfit t ht
  have key := stridedLoop_eq shape strides hlen shape.length (Nat.le_refl _) offset i
  rw [List.take_length, List.take_of_length_le (Nat.le_of_eq hlen)] at key
  exact key h32 h64

/-! ## What the three strided kernels store -/

theorem Compact_ptr {α : Type} (a out : AlignedArray α) (shape strides : List Nat)
    (offset i : Nat) (hi : i < shapeCount shape) :
    (Compact a out shape strides offset).ptr i
      = a.ptr (stridedOffset shape strides offset i) :=
  scatter_last (fun i => i) (fun i => a.ptr (stridedOffset shape strides offset i))
    (shapeCount shape) out i hi (fun _ h1 _ => Nat.ne_of_gt h1)

theorem Compact_ptr_ge {α : Type} (a out : AlignedArray α) (shape strides : List Nat)
    (offset i : Nat) (hi : shapeCount shape ≤ i) :
    (Compact a out shape strides offset).ptr i = out.ptr i :=
  scatter_untouched (fun i => i) (fun i => a.ptr (stridedOffset shape strides offset i))
    (shapeCount shape) out i (fun _ h1 => Nat.ne_of_lt (Nat.lt_of_lt_of_le h1 hi))

/-- Inside a view that fits the machine words, the offset computed for a logical index
below the product is the physical offset of its multi-index. -/
theorem stridedOffset_of_fits (shape strides : List Nat) (offset i : Nat)
    (hlen : strides.length = shape.length) (hfit : Fits32 shape strides)
    (hi : i < shape.prod)
    (h64 : physOffset offset (multiIndex shape i) strides < U64) :
    stridedOffset shape strides offset i = physOffset offset (multiIndex shape i) strides :=
  stridedOffset_eq shape strides offset i hlen (prod_pos_of_lt hi) hfit.2 h64

/-- The physical offsets a view reaches are those of the logical indices below the
product of the extents. -/
theorem reachable_iff (shape strides : List Nat) (offset p : Nat) :
    Reachable shape strides offset p ↔
      ∃ i, i < shape.prod ∧ p = physOffset offset (multiIndex shape i) strides := by
  constructor
  · rintro ⟨idx, hv, hp⟩
    obtain ⟨h1, h2⟩ := multiIndex_ravel shape idx hv
    exact ⟨ravel shape idx, h1, by rw [h2]; exact hp⟩
  · rintro ⟨i, hi, hp⟩
    exact ⟨multiIndex shape i, multiIndex_valid shape i (prod_pos_of_lt hi), hp⟩

/-- The statement of C1 where the 32-bit arithmetic does not wrap.
`Compact` implements the strided index translator on every view
that fits the machine words: when the product of the extents is below `2 ^ 32`, every
`(shape[j] - 1) * strides[j]` is below `2 ^ 32` and the physical offset of the logical
index `i < Π shape` is below `2 ^ 64`, then after `Compact` the element `out[i]` is
`a[offset + Σ_j idx[j] * strides[j]]`, where `idx` is the row-major multi-index of `i`:
a valid index of the shape whose row-major linear index is `i`. -/
theorem Compact_reads_through_view {α : Type} (a out : AlignedArray α)
    (shape strides : List Nat) (offset i : Nat)
    (hlen : strides.length = shape.length) (hfit : Fits32 shape strides)
    (hi : i < shape.prod)
    (h64 : physOffset offset (multiIndex shape i) strides < U64) :
    ValidIndex (multiIndex shape i) shape ∧ ravel shape (multiIndex shape i) = i ∧
    (Compact a out shape strides offset).ptr i
      = a.ptr (physOffset offset (multiIndex shape i) strides) := by
  refine ⟨multiIndex_valid shape i (prod_pos_of_lt hi), ravel_multiIndex shape i hi, ?_⟩
  rw [Compact_ptr a out shape strides offset i (by rw [shapeCount_eq_prod shape hfit.1]; exact hi),
    stridedOffset_of_fits shape strides offset i hlen hfit hi h64]

/-- An instance of the statement of C1 inside the 32-bit range:
the transposed view of the specification, shape `[2, 3]` and
strides `[1, 2]` over `[1, 2, 3, 4, 5, 6]`, at the logical index `4`. -/
theorem Compact_reads_through_view_witness :
    ([1, 2] : List Nat).length = [2, 3].length ∧ Fits32 [2, 3] [1, 2] ∧
    4 < ([2, 3] : List Nat).prod ∧ physOffset 0 (multiIndex [2, 3] 4) [1, 2] < U64 ∧
    (Compact (⟨fun k => (k : Int) + 1, 6⟩ : AlignedArray Int) ⟨fun _ => 0, 6⟩ [2, 3] [1, 2] 0).ptr 4
      = (fun k => (k : Int) + 1) (physOffset 0 (multiIndex [2, 3] 4) [1, 2]) :=
  ⟨by decide, by decide, by decide, by decide,
    (Compact_reads_through_view (⟨fun k => (k : Int) + 1, 6⟩ : AlignedArray Int) ⟨fun _ => 0, 6⟩
      [2, 3] [1, 2] 0 4 (by decide) (by decide) (by decide) (by decide)).2.2⟩

/-- **C1**, evaluated where the code breaks it,
when the product of the extents leaves the 32-bit range:
for the shape `[65536, 65536]` (positive extents, strides `[0, 0]` of the same length)
the loop bound is `65536 * 65536 mod 2 ^ 32 = 0`, so `out[0]` keeps its old value `0`
although the logical index `0` is below the product and the view reads `a[0] = 1`. -/
theorem Compact_claim_fails_wide_shape :
    (∀ d ∈ ([65536, 65536] : List Nat), 0 < d) ∧
    ([0, 0] : List Nat).length = [65536, 65536].length ∧
    0 < ([65536, 65536] : List Nat).prod ∧
    (Compact (⟨fun _ => 1, 1⟩ : AlignedArray Int) ⟨fun _ => 0, 4294967296⟩
        [65536, 65536] [0, 0] 0).ptr 0
      ≠ (fun _ => (1 : Int)) (physOffset 0 (multiIndex [65536, 65536] 0) [0, 0]) := by
  refine ⟨by decide, by decide, by decide, ?_⟩
  decide

/-- The offsets the scatter kernels compute below the loop bound are exactly the
physical offsets the view reaches. -/
theorem target_iff_reachable (shape strides : List Nat) (offset size : Nat)
    (hlen : strides.length = shape.length) (hfit : Fits32 shape strides)
    (hin : InBounds shape strides offset size) (hsize : size ≤ U64) (p : Nat) :
    (∃ i, i < shapeCount shape ∧ stridedOffset shape strides offset i = p) ↔
      Reachable shape strides offset p := by
  rw [reachable_iff, shapeCount_eq_prod shape hfit.1]
  have key : ∀ i, i < shape.prod →
      stridedOffset shape strides offset i = physOffset offset (multiIndex shape i) strides := by
    intro i hi
    have hb := hin _ (multiIndex_valid shape i (prod_pos_of_lt hi))
    exact stridedOffset_of_fits shape strides offset i hlen hfit hi (by omega)
  constructor
  · rintro ⟨i, hi, h⟩
    exact ⟨i, hi, by rw [← h, key i hi]⟩
  · rintro ⟨i, hi, h⟩
    exact ⟨i, hi, by rw [h, key i hi]⟩

/-- The statement of C2 where the 32-bit arithmetic does not wrap.
Compaction/scatter inverse law on every view that fits the
machine words: when the product of the extents and every `(shape[j] - 1) * strides[j]`
are below `2 ^ 32` and all physical offsets of the view lie inside the buffer `B`,
running `Compact` on `B` and then `EwiseSetitem` of the compact result into a zeroed
buffer `Z` of the size of `B` gives `Z[p] = B[p]` at every physical offset `p` the view
reaches and `Z[p] = 0` everywhere else, also when several logical indices share a
physical offset. -/
theorem Compact_then_EwiseSetitem_restores {α : Type} [Zero α] (B c0 : AlignedArray α)
    (shape strides : List Nat) (offset : Nat)
    (hlen : strides.length = shape.length) (hfit : Fits32 shape strides)
    (hin : InBounds shape strides offset B.size) (hsize : B.size ≤ U64) (p : Nat) :
    (Reachable shape strides offset p →
      (EwiseSetitem (Compact B c0 shape strides offset) ⟨fun _ => 0, B.size⟩
        shape strides offset).ptr p = B.ptr p) ∧
    (¬ Reachable shape strides offset p →
      (EwiseSetitem (Compact B c0 shape strides offset) ⟨fun _ => 0, B.size⟩
        shape strides offset).ptr p = 0) := by
  have hiff := target_iff_reachable shape strides offset B.size hlen hfit hin hsize p
  constructor
  · intro hr
    obtain ⟨k, hk, hkp, hv⟩ := scatter_some (fun i => stridedOffset shape strides offset i)
      (fun i => (Compact B c0 shape strides offset).ptr i) (shapeCount shape)
      ⟨fun _ => 0, B.size⟩ p (hiff.mpr hr)
    refine hv.trans ?_
    rw [Compact_ptr B c0 shape strides offset k hk, hkp]
  · intro hr
    exact scatter_untouched (fun i => stridedOffset shape strides offset i)
      (fun i => (Compact B c0 shape strides offset).ptr i) (shapeCount shape)
      ⟨fun _ => 0, B.size⟩ p (fun i hi h => hr (hiff.mp ⟨i, hi, h⟩))

theorem validIndex_pair (idx : List Nat) (d1 d2 : Nat) (h : ValidIndex idx [d1, d2]) :
    ∃ x y, idx = [x, y] ∧ x < d1 ∧ y < d2 := by
  cases h with
  | cons hx h2 =>
    cases h2 with
    | cons hy h3 =>
      cases h3
      exact ⟨_, _, rfl, hx, hy⟩

theorem validIndex_single (idx : List Nat) (d : Nat) (h : ValidIndex idx [d]) :
    ∃ x, idx = [x] ∧ x < d := by
  cases h with
  | cons hx h2 =>
    cases h2
    exact ⟨_, rfl, hx⟩

/-- An instance of the statement of C2 inside the 32-bit range:
the transposed view `[2, 3]`/`[1, 2]` over a buffer of `6`
elements holding `1, …, 6`; the offset `5` is reached by the multi-index `[1, 2]`. -/
theorem Compact_then_EwiseSetitem_restores_witness :
    ([1, 2] : List Nat).length = [2, 3].length ∧ Fits32 [2, 3] [1, 2] ∧
    InBounds [2, 3] [1, 2] 0 6 ∧ Reachable [2, 3] [1, 2] 0 5 ∧
    (EwiseSetitem (Compact (⟨fun k => (k : Int) + 1, 6⟩ : AlignedArray Int) ⟨fun _ => 0, 6⟩
      [2, 3] [1, 2] 0) ⟨fun _ => 0, 6⟩ [2, 3] [1, 2] 0).ptr 5 = (5 : Int) + 1 :=
  have hin : InBounds [2, 3] [1, 2] 0 6 := by
    intro idx h
    obtain ⟨x, y, rfl, hx, hy⟩ := validIndex_pair idx 2 3 h
    simp only [physOffset, List.zipWith_cons_cons, List.zipWith_nil_left, List.sum_cons,
      List.sum_nil]
    omega
  have hr : Reachable [2, 3] [1, 2] 0 5 :=
    ⟨[1, 2], List.Forall₂.cons (by decide) (List.Forall₂.cons (by decide) List.Forall₂.nil),
      by decide⟩
  ⟨by decide, by decide, hin, hr,
    (Compact_then_EwiseSetitem_restores (⟨fun k => (k : Int) + 1, 6⟩ : AlignedArray Int)
      ⟨fun _ => 0, 6⟩ [2, 3] [1, 2] 0 (by decide) (by decide) hin (by decide) 5).1 hr⟩

/-- **C2**, evaluated where the code breaks it,
when the product of the extents leaves the 32-bit range:
the view `[65536, 65536]` with strides `[0, 0]` and offset `0` has the single physical
offset `0`, inside a buffer `B` of one element holding `1`.  Both loop bounds are
`65536 * 65536 mod 2 ^ 32 = 0`, so the zeroed buffer stays `0` at the reachable
offset `0`. -/
theorem inverse_law_fails_wide_shape :
    InBounds [65536, 65536] [0, 0] 0 1 ∧ Reachable [65536, 65536] [0, 0] 0 0 ∧
    (EwiseSetitem (Compact (⟨fun _ => 1, 1⟩ : AlignedArray Int) ⟨fun _ => 0, 4294967296⟩
        [65536, 65536] [0, 0] 0) ⟨fun _ => 0, 1⟩ [65536, 65536] [0, 0] 0).ptr 0
      ≠ (fun _ => (1 : Int)) 0 := by
  refine ⟨?_, ⟨[0, 0], ?_, rfl⟩, by decide⟩
  · intro idx h
    obtain ⟨x, y, rfl, _, _⟩ := validIndex_pair idx _ _ h
    simp [physOffset]
  · exact List.Forall₂.cons (by decide) (List.Forall₂.cons (by decide) List.Forall₂.nil)

/-- The statement of C8 where the 32-bit arithmetic does not wrap.
`EwiseSetitem` scatters through the view and touches nothing
else, on every view that fits the machine words: when the product of the extents and
every `(shape[j] - 1) * strides[j]` are below `2 ^ 32` and the view maps distinct
logical indices to distinct physical offsets inside `out`, then after `EwiseSetitem`
`out[offset + Σ_j idx[j] * strides[j]] = a[i]` for every logical index `i < Π shape`
with row-major multi-index `idx`, every position that is not the physical offset of a
logical index keeps its value, and the element count of `out` is unchanged. -/
theorem EwiseSetitem_scatters_through_view {α : Type} (a out : AlignedArray α)
    (shape strides : List Nat) (offset : Nat)
    (hlen : strides.length = shape.length) (hfit : Fits32 shape strides)
    (hinj : ∀ i, i < shape.prod → ∀ j, j < shape.prod →
      physOffset offset (multiIndex shape i) strides
        = physOffset offset (multiIndex shape j) strides → i = j)
    (hin : ∀ i, i < shape.prod → physOffset offset (multiIndex shape i) strides < out.size)
    (hsize : out.size ≤ U64) :
    (∀ i, i < shape.prod →
      (EwiseSetitem a out shape strides offset).ptr
        (physOffset offset (multiIndex shape i) strides) = a.ptr i) ∧
    (∀ q, (∀ i, i < shape.prod → q ≠ physOffset offset (multiIndex shape i) strides) →
      (EwiseSetitem a out shape strides offset).ptr q = out.ptr q) ∧
    (EwiseSetitem a out shape strides offset).size = out.size := by
  have hn := shapeCount_eq_prod shape hfit.1
  have key : ∀ i, i < shape.prod →
      stridedOffset shape strides offset i = physOffset offset (multiIndex shape i) strides :=
    fun i hi => stridedOffset_of_fits shape strides offset i hlen hfit hi
      (Nat.lt_of_lt_of_le (hin i hi) hsize)
  refine ⟨?_, ?_, scatter_size _ _ _ _⟩
  · intro i hi
    rw [← key i hi]
    refine scatter_last (fun i => stridedOffset shape strides offset i) (fun i => a.ptr i)
      (shapeCount shape) out i (by rw [hn]; exact hi) ?_
    intro k hik hk e
    rw [hn] at hk
    have := hinj k hk i hi (by rw [← key k hk, ← key i hi]; exact e)
    omega
  · intro q hq
    refine scatter_untouched (fun i => stridedOffset shape strides offset i) (fun i => a.ptr i)
      (shapeCount shape) out q ?_
    intro i hi e
    rw [hn] at hi
    exact hq i hi (by rw [← key i hi]; exact e.symm)

/-- An instance of the statement of C8 inside the 32-bit range:
scattering `10, 11, …` through the transposed view
`[2, 3]`/`[1, 2]` into a buffer of `6` elements puts `a[4]` at the physical offset of
the logical index `4`. -/
theorem EwiseSetitem_scatters_through_view_witness :
    ([1, 2] : List Nat).length = [2, 3].length ∧ Fits32 [2, 3] [1, 2] ∧
    (∀ i, i < ([2, 3] : List Nat).prod → ∀ j, j < ([2, 3] : List Nat).prod →
      physOffset 0 (multiIndex [2, 3] i) [1, 2] = physOffset 0 (multiIndex [2, 3] j) [1, 2] →
      i = j) ∧
    (∀ i, i < ([2, 3] : List Nat).prod → physOffset 0 (multiIndex [2, 3] i) [1, 2] < 6) ∧
    (EwiseSetitem (⟨fun k => (k : Int) + 10, 6⟩ : AlignedArray Int) ⟨fun _ => 0, 6⟩
      [2, 3] [1, 2] 0).ptr (physOffset 0 (multiIndex [2, 3] 4) [1, 2]) = (4 : Int) + 10 :=
  ⟨by decide, by decide, by decide, by decide,
    (EwiseSetitem_scatters_through_view (⟨fun k => (k : Int) + 10, 6⟩ : AlignedArray Int)
      ⟨fun _ => 0, 6⟩ [2, 3] [1, 2] 0 (by decide) (by decide) (by decide) (by decide)
      (by decide)).1 4 (by decide)⟩

/-- **C8**, evaluated where the code breaks it,
when a product `idx[j] * strides[j]` leaves the 32-bit
range: the view of shape `[3]` with stride `2 ^ 31` maps the logical indices `0, 1, 2`
to the distinct offsets `0`, `2 ^ 31`, `2 ^ 32` inside a buffer of `2 ^ 32 + 1`
elements, but the code computes `2 * 2 ^ 31 mod 2 ^ 32 = 0` for the index `2` and
stores `a[2]` over `a[0]` at offset `0`. -/
theorem EwiseSetitem_claim_fails_wide_stride :
    (∀ i, i < ([3] : List Nat).prod → ∀ j, j < ([3] : List Nat).prod →
      physOffset 0 (multiIndex [3] i) [2147483648]
        = physOffset 0 (multiIndex [3] j) [2147483648] → i = j) ∧
    (∀ i, i < ([3] : List Nat).prod →
      physOffset 0 (multiIndex [3] i) [2147483648] < 4294967297) ∧
    (EwiseSetitem (⟨fun k => (k : Int) + 10, 3⟩ : AlignedArray Int) ⟨fun _ => 0, 4294967297⟩
      [3] [2147483648] 0).ptr (physOffset 0 (multiIndex [3] 0) [2147483648])
      ≠ (fun k => (k : Int) + 10) 0 := by
  refine ⟨by decide, by decide, by decide⟩

/-- The statement of C9 where the 32-bit arithmetic does not wrap.
`ScalarSetitem` writes the scalar exactly on the view, on every
view that fits the machine words: when the product of the extents and every
`(shape[j] - 1) * strides[j]` are below `2 ^ 32` and the view is inside `out`, then for
every value of the `size` argument `out[p] = val` at every physical offset `p` of a
valid multi-index, every other position keeps its value, the element count of `out` is
unchanged, and the loop runs `Π shape` times (one store per logical element). -/
theorem ScalarSetitem_writes_view {α : Type} (size : Nat) (val : α) (out : AlignedArray α)
    (shape strides : List Nat) (offset : Nat)
    (hlen : strides.length = shape.length) (hfit : Fits32 shape strides)
    (hin : InBounds shape strides offset out.size) (hsize : out.size ≤ U64) :
    (∀ p, Reachable shape strides offset p →
      (ScalarSetitem size val out shape strides offset).ptr p = val) ∧
    (∀ p, ¬ Reachable shape strides offset p →
      (ScalarSetitem size val out shape strides offset).ptr p = out.ptr p) ∧
    (ScalarSetitem size val out shape strides offset).size = out.size ∧
    shapeCount shape = shape.prod := by
  refine ⟨?_, ?_, scatter_size _ _ _ _, shapeCount_eq_prod shape hfit.1⟩
  · intro p hr
    obtain ⟨k, _, _, hv⟩ := scatter_some (fun i => stridedOffset shape strides offset i)
      (fun _ => val) (shapeCount shape) out p
      ((target_iff_reachable shape strides offset out.size hlen hfit hin hsize p).mpr hr)
    exact hv
  · intro p hr
    exact scatter_untouched (fun i => stridedOffset shape strides offset i)
      (fun _ => val) (shapeCount shape) out p
      (fun i hi h => hr
        ((target_iff_reachable shape strides offset out.size hlen hfit hin hsize p).mp
          ⟨i, hi, h⟩))

/-- An instance of the statement of C9 inside the 32-bit range:
every second element of a buffer of `6` elements, shape `[3]`,
stride `2`, offset `1`; the offset `5` is reached by the multi-index `[2]`. -/
theorem ScalarSetitem_writes_view_witness :
    ([2] : List Nat).length = [3].length ∧ Fits32 [3] [2] ∧ InBounds [3] [2] 1 6 ∧
    Reachable [3] [2] 1 5 ∧
    (ScalarSetitem 3 (7 : Int) ⟨fun _ => 0, 6⟩ [3] [2] 1).ptr 5 = 7 :=
  have hin : InBounds [3] [2] 1 6 := by
    intro idx h
    obtain ⟨x, rfl, hx⟩ := validIndex_single idx 3 h
    simp only [physOffset, List.zipWith_cons_cons, List.zipWith_nil_left, List.sum_cons,
      List.sum_nil]
    omega
  have hr : Reachable [3] [2] 1 5 :=
    ⟨[2], List.Forall₂.cons (by decide) List.Forall₂.nil, by decide⟩
  ⟨by decide, by decide, hin, hr,
    (ScalarSetitem_writes_view 3 (7 : Int) ⟨fun _ => 0, 6⟩ [3] [2] 1 (by decide) (by decide)
      hin (by decide)).1 5 hr⟩

/-- **C9**, evaluated where the code breaks it,
when the product of the extents leaves the 32-bit range:
the view `[65536, 65536]` with strides `[0, 0]` lies inside a buffer of one element and
reaches the offset `0`, but the loop bound is `65536 * 65536 mod 2 ^ 32 = 0`: nothing
is stored and `out[0]` keeps `0` instead of `val = 7`. -/
theorem ScalarSetitem_claim_fails_wide_shape :
    InBounds [65536, 65536] [0, 0] 0 1 ∧ Reachable [65536, 65536] [0, 0] 0 0 ∧
    (ScalarSetitem 4294967296 (7 : Int) ⟨fun _ => 0, 1⟩ [65536, 65536] [0, 0] 0).ptr 0 ≠ 7 ∧
    shapeCount [65536, 65536] ≠ ([65536, 65536] : List Nat).prod := by
  refine ⟨?_, ⟨[0, 0], ?_, rfl⟩, by decide, by decide⟩
  · intro idx h
    obtain ⟨x, y, rfl, _, _⟩ := validIndex_pair idx _ _ h
    simp [physOffset]
  · exact List.Forall₂.cons (by decide) (List.Forall₂.cons (by decide) List.Forall₂.nil)

theorem AlignedArray.ext_fields {α : Type} (x y : AlignedArray α)
    (hp : ∀ q, x.ptr q = y.ptr q) (hs : x.size = y.size) : x = y := by
  cases x; cases y
  simp only [AlignedArray.mk.injEq]
  exact ⟨funext hp, hs⟩

/-- **C10**.  Scalar-set idempotence: for every buffer state, value and view (and any
values of the unused `size` argument), applying `ScalarSetitem` twice with the same
value to the same view leaves exactly the buffer state of applying it once. -/
theorem ScalarSetitem_idempotent {α : Type} (size1 size2 : Nat) (val : α)
    (out : AlignedArray α) (shape strides : List Nat) (offset : Nat) :
    ScalarSetitem size2 val (ScalarSetitem size1 val out shape strides offset)
        shape strides offset
      = ScalarSetitem size1 val out shape strides offset := by
  apply AlignedArray.ext_fields
  · intro q
    by_cases h : ∃ i, i < shapeCount shape ∧ stridedOffset shape strides offset i = q
    · obtain ⟨_, _, _, h2⟩ := scatter_some (fun i => stridedOffset shape strides offset i)
        (fun _ => val) (shapeCount shape) (ScalarSetitem size1 val out shape strides offset) q h
      obtain ⟨_, _, _, h1⟩ := scatter_some (fun i => stridedOffset shape strides offset i)
        (fun _ => val) (shapeCount shape) out q h
      exact h2.trans h1.symm
    · exact scatter_untouched (fun i => stridedOffset shape strides offset i)
        (fun _ => val) (shapeCount shape) (ScalarSetitem size1 val out shape strides offset) q
        (fun i hi e => h ⟨i, hi, e⟩)
  · exact scatter_size (fun i => stridedOffset shape strides offset i) (fun _ => val)
      (shapeCount shape) (ScalarSetitem size1 val out shape strides offset)

/-! ## Loops seen through an abstraction -/

/-- A loop simulates a fold over abstract values when every iteration does. -/
theorem forLoop_sim {σ β : Type} (R : σ → β → Prop) (body : Nat → σ → σ) (G : Nat → β → β)
    (n : Nat) (h : ∀ i, i < n → ∀ s v, R s v → R (body i s) (G i v))
    (s : σ) (v : β) (hR : R s v) : R (forLoop body n s) (forLoop G n v) := by
  induction n with
  | zero => exact hR
  | succ n ih =>
    exact h n (Nat.lt_succ_self n) _ _ (ih (fun i hi => h i (Nat.lt_succ_of_lt hi)))

/-- A property every iteration keeps is kept by the loop. -/
theorem forLoop_inv {σ : Type} (P : σ → Prop) (body : Nat → σ → σ) (n : Nat)
    (h : ∀ i, i < n → ∀ s, P s → P (body i s)) (s : σ) (hs : P s) :
    P (forLoop body n s) := by
  induction n with
  | zero => exact hs
  | succ n ih =>
    exact h n (Nat.lt_succ_self n) _ (ih (fun i hi => h i (Nat.lt_succ_of_lt hi)))

/-- When the iteration `i0` alone changes the abstract value, by `F`, so does the
loop. -/
theorem forLoop_only {σ β : Type} (R : σ → β → Prop) (body : Nat → σ → σ) (F : β → β)
    (n i0 : Nat) (hi0 : i0 < n)
    (hother : ∀ i, i < n → i ≠ i0 → ∀ s v, R s v → R (body i s) v)
    (hat : ∀ s v, R s v → R (body i0 s) (F v))
    (s : σ) (v : β) (hR : R s v) : R (forLoop body n s) (F v) := by
  induction n with
  | zero => omega
  | succ n ih =>
    show R (body n (forLoop body n s)) (F v)
    rcases Nat.lt_or_ge i0 n with hlt | hge
    · exact hother n (Nat.lt_succ_self n) (by omega) _ _
        (ih hlt (fun i hi hne => hother i (Nat.lt_succ_of_lt hi) hne))
    · have e : i0 = n := by omega
      subst e
      exact hat _ _ (forLoop_inv (fun s => R s v) body i0
        (fun i hi s hs => hother i (Nat.lt_succ_of_lt hi) (by omega) s v hs) s hR)

/-- Loops with bodies that agree below the bound agree. -/
theorem forLoop_congr {σ : Type} (f g : Nat → σ → σ) (n : Nat)
    (h : ∀ i, i < n → ∀ s, f i s = g i s) (s : σ) : forLoop f n s = forLoop g n s := by
  induction n with
  | zero => rfl
  | succ n ih =>
    show f n (forLoop f n s) = g n (forLoop g n s)
    rw [ih (fun i hi => h i (Nat.lt_succ_of_lt hi)), h n (Nat.lt_succ_self n)]

/-- A loop over `a + b` iterations is the loop over the first `a` followed by the loop
over the next `b`. -/
theorem forLoop_add {σ : Type} (f : Nat → σ → σ) (a b : Nat) (s : σ) :
    forLoop f (a + b) s = forLoop (fun j s => f (a + j) s) b (forLoop f a s) := by
  induction b with
  | zero => rfl
  | succ b ih =>
    show f (a + b) (forLoop f (a + b) s) = f (a + b) (forLoop _ b (forLoop f a s))
    rw [ih]

/-- A loop over `N * T` iterations is `N` rounds of `T` iterations. -/
theorem forLoop_blocks {σ : Type} (f : Nat → σ → σ) (N T : Nat) (s : σ) :
    forLoop f (N * T) s = forLoop (fun J s => forLoop (fun jj s => f (J * T + jj) s) T s) N s := by
  induction N with
  | zero => simp [forLoop]
  | succ N ih =>
    show _ = forLoop (fun jj s => f (N * T + jj) s) T (forLoop _ N s)
    rw [← ih, Nat.succ_mul, forLoop_add]

/-- A running sum started at `v` ends at `v` plus the sum of the terms. -/
theorem forLoop_add_eq_sum {α : Type} [AddCommMonoid α] (t : Nat → α) (n : Nat) (v : α) :
    forLoop (fun j s => s + t j) n v = v + ∑ j in Finset.range n, t j := by
  induction n with
  | zero => simp [forLoop]
  | succ n ih =>
    show forLoop (fun j s => s + t j) n v + t n = _
    rw [ih, Finset.sum_range_succ, add_assoc]

/-! ## The tile micro-kernel -/

theorem tile_index_inj (i k i0 k0 : Nat) (hk : k < TILE) (hk0 : k0 < TILE)
    (h : i * TILE + k = i0 * TILE + k0) : i = i0 ∧ k = k0 := by
  unfold TILE at *
  omega

theorem tile_index_lt (i k : Nat) (hi : i < TILE) (hk : k < TILE) :
    i * TILE + k < TILE * TILE := by
  unfold TILE at *
  omega

/-- A store through a pointer keeps the cell `q` of the memory unless it is the
target. -/
theorem Ptr.set_keeps {α : Type} (B q : Nat) (s : Ptr α) (v : α) (c : Nat) (w : α)
    (hq : q ≠ B + c) (hs : s.base = B ∧ s.mem q = v) :
    (s.set c w).base = B ∧ (s.set c w).mem q = v := by
  refine ⟨hs.1, ?_⟩
  show write s.mem (s.base + c) w q = v
  rw [write_other _ _ _ _ (by rw [hs.1]; exact hq)]
  exact hs.2

/-- The innermost loop of `AlignedDot` for the cell `(i, k)` adds the `TILE` products to
that cell, one after the other. -/
theorem AlignedDot_inner_at {α : Type} [Add α] [Mul α] (a b : Ptr α) (B i k : Nat)
    (s : Ptr α) (v : α) (hs : s.base = B ∧ s.mem (B + (i * TILE + k)) = v) :
    (forLoop (fun j (out : Ptr α) => out.set (i * TILE + k)
        (out.get (i * TILE + k) + a.get (i * TILE + j) * b.get (j * TILE + k))) TILE s).base = B ∧
    (forLoop (fun j (out : Ptr α) => out.set (i * TILE + k)
        (out.get (i * TILE + k) + a.get (i * TILE + j) * b.get (j * TILE + k))) TILE s).mem
        (B + (i * TILE + k))
      = forLoop (fun j v => v + a.get (i * TILE + j) * b.get (j * TILE + k)) TILE v := by
  refine forLoop_sim (fun (s : Ptr α) v => s.base = B ∧ s.mem (B + (i * TILE + k)) = v)
    _ _ TILE ?_ s v hs
  intro j _ s v hs
  refine ⟨hs.1, ?_⟩
  show write s.mem (s.base + (i * TILE + k)) _ (B + (i * TILE + k)) = _
  rw [hs.1, write_same]
  show s.mem (s.base + (i * TILE + k)) + _ = _
  rw [hs.1, hs.2]

/-- The innermost loop of `AlignedDot` for the cell `(i, k)` keeps every other cell. -/
theorem AlignedDot_inner_keeps {α : Type} [Add α] [Mul α] (a b : Ptr α) (B q i k : Nat)
    (hq : q ≠ B + (i * TILE + k)) (s : Ptr α) (v : α) (hs : s.base = B ∧ s.mem q = v) :
    (forLoop (fun j (out : Ptr α) => out.set (i * TILE + k)
        (out.get (i * TILE + k) + a.get (i * TILE + j) * b.get (j * TILE + k))) TILE s).base = B ∧
    (forLoop (fun j (out : Ptr α) => out.set (i * TILE + k)
        (out.get (i * TILE + k) + a.get (i * TILE + j) * b.get (j * TILE + k))) TILE s).mem q
      = v :=
  forLoop_inv (fun (s : Ptr α) => s.base = B ∧ s.mem q = v) _ TILE
    (fun _ _ s hs => Ptr.set_keeps B q s v _ _ hq hs) s hs

/-- The cell `(i0, k0)` of the destination block after `AlignedDot`: the old content
with the `TILE` products added from left to right. -/
theorem AlignedDot_cell {α : Type} [Add α] [Mul α] (a b out : Ptr α) (i0 k0 : Nat)
    (hi0 : i0 < TILE) (hk0 : k0 < TILE) :
    (AlignedDot a b out).base = out.base ∧
    (AlignedDot a b out).mem (out.base + (i0 * TILE + k0))
      = forLoop (fun j v => v + a.get (i0 * TILE + j) * b.get (j * TILE + k0)) TILE
          (out.mem (out.base + (i0 * TILE + k0))) := by
  refine forLoop_only
    (fun (s : Ptr α) v => s.base = out.base ∧ s.mem (out.base + (i0 * TILE + k0)) = v)
    _ _ TILE i0 hi0 ?_ ?_ out _ ⟨rfl, rfl⟩
  · intro i _ hne s v hs
    refine forLoop_inv
      (fun (s : Ptr α) => s.base = out.base ∧ s.mem (out.base + (i0 * TILE + k0)) = v)
      _ TILE ?_ s hs
    intro k hk s hs
    refine AlignedDot_inner_keeps a b out.base _ i k ?_ s v hs
    intro e
    exact hne (tile_index_inj i k i0 k0 hk hk0 (by omega)).1
  · intro s v hs
    refine forLoop_only
      (fun (s : Ptr α) v => s.base = out.base ∧ s.mem (out.base + (i0 * TILE + k0)) = v)
      _ _ TILE k0 hk0 ?_ ?_ s v hs
    · intro k hk hne s v hs
      refine AlignedDot_inner_keeps a b out.base _ i0 k ?_ s v hs
      intro e
      exact hne (tile_index_inj i0 k i0 k0 hk hk0 (by omega)).2
    · intro s v hs
      exact AlignedDot_inner_at a b out.base i0 k0 s v hs

/-- Outside the destination block `AlignedDot` changes nothing. -/
theorem AlignedDot_outside {α : Type} [Add α] [Mul α] (a b out : Ptr α) (q : Nat)
    (hq : ∀ c, c < TILE * TILE → q ≠ out.base + c) :
    (AlignedDot a b out).mem q = out.mem q := by
  refine (forLoop_inv (fun (s : Ptr α) => s.base = out.base ∧ s.mem q = out.mem q)
    _ TILE ?_ out ⟨rfl, rfl⟩).2
  intro i hi s hs
  refine forLoop_inv (fun (s : Ptr α) => s.base = out.base ∧ s.mem q = out.mem q)
    _ TILE ?_ s hs
  intro k hk s hs
  exact AlignedDot_inner_keeps a b out.base q i k (hq _ (tile_index_lt i k hi hk)) s _ hs

/-- **C5**.  `AlignedDot` accumulates and never overwrites: for all blocks `a`, `b` and
every initial content of the destination block, after `AlignedDot(a, b, out)` every
`out[i * TILE + k]` with `i, k < TILE` is its old value plus
`Σ_{j < TILE} a[i * TILE + j] * b[j * TILE + k]`. -/
theorem AlignedDot_accumulates {α : Type} [AddCommMonoid α] [Mul α] (a b out : Ptr α)
    (i k : Nat) (hi : i < TILE) (hk : k < TILE) :
    (AlignedDot a b out).get (i * TILE + k)
      = out.get (i * TILE + k)
        + ∑ j in Finset.range TILE, a.get (i * TILE + j) * b.get (j * TILE + k) := by
  obtain ⟨hb, hm⟩ := AlignedDot_cell a b out i k hi hk
  show (AlignedDot a b out).mem ((AlignedDot a b out).base + (i * TILE + k)) = _
  rw [hb, hm, forLoop_add_eq_sum]
  rfl

/-- Witness of **C5**: the cell `(1, 2)` of a block that held `5` everywhere. -/
theorem AlignedDot_accumulates_witness :
    1 < TILE ∧ 2 < TILE ∧
    (AlignedDot (⟨fun q => (q : Int) - 3, 0⟩ : Ptr Int) ⟨fun q => 2 - (q : Int), 64⟩
        ⟨fun _ => 5, 128⟩).get (1 * TILE + 2)
      = (⟨fun _ => 5, 128⟩ : Ptr Int).get (1 * TILE + 2)
        + ∑ j in Finset.range TILE,
            (⟨fun q => (q : Int) - 3, 0⟩ : Ptr Int).get (1 * TILE + j)
              * (⟨fun q => 2 - (q : Int), 64⟩ : Ptr Int).get (j * TILE + 2) :=
  ⟨by decide, by decide,
    AlignedDot_accumulates (⟨fun q => (q : Int) - 3, 0⟩ : Ptr Int) ⟨fun q => 2 - (q : Int), 64⟩
      ⟨fun _ => 5, 128⟩ 1 2 (by decide) (by decide)⟩

/-! ## The naive product -/

theorem row_index_inj (p i k i0 k0 : Nat) (hk : k < p) (hk0 : k0 < p)
    (h : i * p + k = i0 * p + k0) : i = i0 ∧ k = k0 := by
  rcases Nat.lt_trichotomy i i0 with hlt | heq | hgt
  · have := Nat.mul_le_mul_right p (Nat.succ_le_of_lt hlt)
    rw [Nat.succ_mul] at this
    omega
  · subst heq
    exact ⟨rfl, by omega⟩
  · have := Nat.mul_le_mul_right p (Nat.succ_le_of_lt hgt)
    rw [Nat.succ_mul] at this
    omega

theorem row_index_lt (m p i k : Nat) (hi : i < m) (hk : k < p) : i * p + k < m * p := by
  have := Nat.mul_le_mul_right p (Nat.succ_le_of_lt hi)
  rw [Nat.succ_mul] at this
  omega

/-- The cell `(i0, k0)` after `Matmul`: the products for `j = 0, …, n - 1` added from
left to right, starting from `0`. -/
theorem Matmul_cell {α : Type} [Zero α] [Add α] [Mul α] (a b out : AlignedArray α)
    (m n p i0 k0 : Nat) (hi0 : i0 < m) (hk0 : k0 < p) :
    (Matmul a b out m n p).ptr (i0 * p + k0)
      = forLoop (fun j sum => sum + a.ptr (i0 * n + j) * b.ptr (j * p + k0)) n 0 := by
  refine forLoop_only (fun (s : AlignedArray α) v => s.ptr (i0 * p + k0) = v) _
    (fun _ => forLoop (fun j sum => sum + a.ptr (i0 * n + j) * b.ptr (j * p + k0)) n 0)
    m i0 hi0 ?_ ?_ out (out.ptr (i0 * p + k0)) rfl
  · intro i _ hne s v hs
    refine forLoop_inv (fun (s : AlignedArray α) => s.ptr (i0 * p + k0) = v) _ p ?_ s hs
    intro k hk s hs
    show write s.ptr (i * p + k) _ (i0 * p + k0) = v
    rw [write_other _ _ _ _ (fun e => hne (row_index_inj p i k i0 k0 hk hk0 e.symm).1)]
    exact hs
  · intro s v hs
    refine forLoop_only (fun (s : AlignedArray α) v => s.ptr (i0 * p + k0) = v) _
      (fun _ => forLoop (fun j sum => sum + a.ptr (i0 * n + j) * b.ptr (j * p + k0)) n 0)
      p k0 hk0 ?_ ?_ s v hs
    · intro k hk hne s v hs
      show write s.ptr (i0 * p + k) _ (i0 * p + k0) = v
      rw [write_other _ _ _ _ (fun e => hne (row_index_inj p i0 k i0 k0 hk hk0 e.symm).2)]
      exact hs
    · intro s v _
      exact write_same _ _ _

/-- `Matmul` stores only below `m * p` and keeps the element count. -/
theorem Matmul_outside {α : Type} [Zero α] [Add α] [Mul α] (a b out : AlignedArray α)
    (m n p q : Nat) (hq : m * p ≤ q) :
    (Matmul a b out m n p).ptr q = out.ptr q ∧ (Matmul a b out m n p).size = out.size := by
  refine forLoop_inv (fun (s : AlignedArray α) => s.ptr q = out.ptr q ∧ s.size = out.size)
    _ m ?_ out ⟨rfl, rfl⟩
  intro i hi s hs
  refine forLoop_inv (fun (s : AlignedArray α) => s.ptr q = out.ptr q ∧ s.size = out.size)
    _ p ?_ s hs
  intro k hk s hs
  refine ⟨?_, hs.2⟩
  show write s.ptr (i * p + k) _ q = _
  rw [write_other _ _ _ _ (by have := row_index_lt m p i k hi hk; omega)]
  exact hs.1

/-- **C4**.  Naive `Matmul` computes the matrix product: for every `m`, `n`, `p` and
row-major `a`, `b`, after `Matmul(a, b, out, m, n, p)` every `out[i * p + k]` with
`i < m`, `k < p` equals `Σ_{j < n} a[i * n + j] * b[j * p + k]` (all zeros when
`n = 0`), no position of `out` at an index `≥ m * p` is changed, and the element count of
`out` is kept. -/
theorem Matmul_computes_product {α : Type} [AddCommMonoid α] [Mul α]
    (a b out : AlignedArray α) (m n p : Nat) :
    (∀ i k, i < m → k < p →
      (Matmul a b out m n p).ptr (i * p + k)
        = ∑ j in Finset.range n, a.ptr (i * n + j) * b.ptr (j * p + k)) ∧
    (∀ i k, i < m → k < p → (Matmul a b out m 0 p).ptr (i * p + k) = 0) ∧
    (∀ q, m * p ≤ q → (Matmul a b out m n p).ptr q = out.ptr q) ∧
    (Matmul a b out m n p).size = out.size := by
  refine ⟨?_, ?_, fun q hq => (Matmul_outside a b out m n p q hq).1,
    (Matmul_outside a b out m n p (m * p) (Nat.le_refl _)).2⟩
  · intro i k hi hk
    rw [Matmul_cell a b out m n p i k hi hk, forLoop_add_eq_sum, zero_add]
  · intro i k hi hk
    rw [Matmul_cell a b out m 0 p i k hi hk]
    rfl

/-- Witness of **C4**: the scenario of the specification, the `2 × 2` identity times
`[1, 2, 3, 4]`, at the cell `(1, 0)`. -/
theorem Matmul_computes_product_witness :
    (Matmul (⟨fun q => [1, 0, 0, 1].getD q 0, 4⟩ : AlignedArray Int)
        ⟨fun q => [1, 2, 3, 4].getD q 0, 4⟩ ⟨fun _ => 9, 4⟩ 2 2 2).ptr (1 * 2 + 0) = 3 :=
  ((Matmul_computes_product (⟨fun q => [1, 0, 0, 1].getD q 0, 4⟩ : AlignedArray Int)
      ⟨fun q => [1, 2, 3, 4].getD q 0, 4⟩ ⟨fun _ => 9, 4⟩ 2 2 2).1 1 0
    (by decide) (by decide)).trans (by decide)

/-! ## The tiled product -/

theorem memsetZero_cell {α : Type} [Zero α] (p : Ptr α) (count c : Nat) (hc : c < count) :
    (memsetZero p count).mem (p.base + c) = 0 := by
  refine (forLoop_only (fun (s : Ptr α) (v : α) => s.base = p.base ∧ s.mem (p.base + c) = v)
    _ (fun _ => 0) count c hc ?_ ?_ p (p.mem (p.base + c)) ⟨rfl, rfl⟩).2
  · intro k _ hne s v hs
    exact Ptr.set_keeps p.base _ s v k 0 (by omega) hs
  · intro s v hs
    refine ⟨hs.1, ?_⟩
    show write s.mem (s.base + c) 0 (p.base + c) = 0
    rw [hs.1, write_same]

theorem memsetZero_outside {α : Type} [Zero α] (p : Ptr α) (count q : Nat)
    (hq : ∀ c, c < count → q ≠ p.base + c) :
    (memsetZero p count).mem q = p.mem q :=
  (forLoop_inv (fun (s : Ptr α) => s.base = p.base ∧ s.mem q = p.mem q) _ count
    (fun k hk s hs => Ptr.set_keeps p.base q s _ k 0 (hq k hk) hs) p ⟨rfl, rfl⟩).2

/-- The cell `(ii, kk)` of the output tile `(i, k)` after the tile has been processed:
the products of row `ii` of the tiles `a(i, J)` and column `kk` of the tiles `b(J, k)`,
added from left to right, starting from `0`, whatever the tile held before. -/
theorem MatmulTiled.tile_cell {α : Type} [Zero α] [Add α] [Mul α] (a b out : AlignedArray α)
    (m n p i k ii kk : Nat) (hii : ii < TILE) (hkk : kk < TILE) :
    (MatmulTiled.tile a b m n p i k out).ptr ((i * p + k * TILE) * TILE + (ii * TILE + kk))
      = forLoop (fun J v => forLoop (fun jj v =>
            v + (TILE_BASE_ADDR a.ptr m n i J).get (ii * TILE + jj)
              * (TILE_BASE_ADDR b.ptr n p J k).get (jj * TILE + kk)) TILE v)
          (n / TILE) 0 := by
  refine forLoop_sim
    (fun (s : AlignedArray α) v => s.ptr ((i * p + k * TILE) * TILE + (ii * TILE + kk)) = v)
    _ _ (n / TILE) ?_ _ 0 ?_
  · intro J _ s v hs
    have h := (AlignedDot_cell (TILE_BASE_ADDR a.ptr m n i J) (TILE_BASE_ADDR b.ptr n p J k)
      (TILE_BASE_ADDR s.ptr m p i k) ii kk hii hkk).2
    refine h.trans ?_
    show forLoop _ TILE (s.ptr ((i * p + k * TILE) * TILE + (ii * TILE + kk))) = _
    rw [hs]
  · exact memsetZero_cell (TILE_BASE_ADDR out.ptr m p i k) (TILE * TILE) (ii * TILE + kk)
      (tile_index_lt ii kk hii hkk)

/-- Processing the output tile `(i, k)` changes nothing outside that tile and keeps the
element count. -/
theorem MatmulTiled.tile_outside {α : Type} [Zero α] [Add α] [Mul α] (a b out : AlignedArray α)
    (m n p i k q : Nat) (hq : ∀ c, c < TILE * TILE → q ≠ (i * p + k * TILE) * TILE + c) :
    (MatmulTiled.tile a b m n p i k out).ptr q = out.ptr q ∧
    (MatmulTiled.tile a b m n p i k out).size = out.size := by
  refine forLoop_inv (fun (s : AlignedArray α) => s.ptr q = out.ptr q ∧ s.size = out.size)
    _ (n / TILE) ?_ _ ⟨?_, rfl⟩
  · intro J _ s hs
    refine ⟨?_, hs.2⟩
    exact (AlignedDot_outside (TILE_BASE_ADDR a.ptr m n i J) (TILE_BASE_ADDR b.ptr n p J k)
      (TILE_BASE_ADDR s.ptr m p i k) q hq).trans hs.1
  · exact memsetZero_outside (TILE_BASE_ADDR out.ptr m p i k) (TILE * TILE) q hq

/-- Distinct output tiles do not overlap. -/
theorem tile_region_inj (p i k i0 k0 c c0 : Nat) (hk : k < p / TILE) (hk0 : k0 < p / TILE)
    (hc : c < TILE * TILE) (hc0 : c0 < TILE * TILE)
    (h : (i * p + k * TILE) * TILE + c = (i0 * p + k0 * TILE) * TILE + c0) :
    i = i0 ∧ k = k0 := by
  unfold TILE at *
  rcases Nat.lt_trichotomy i i0 with hlt | heq | hgt
  · have := Nat.mul_le_mul_right p (Nat.succ_le_of_lt hlt)
    rw [Nat.succ_mul] at this
    omega
  · subst heq
    exact ⟨rfl, by omega⟩
  · have := Nat.mul_le_mul_right p (Nat.succ_le_of_lt hgt)
    rw [Nat.succ_mul] at this
    omega

/-- The cell `(ii, kk)` of the output tile `(I, K)` after `MatmulTiled`. -/
theorem MatmulTiled_cell {α : Type} [Zero α] [Add α] [Mul α] (a b out : AlignedArray α)
    (m n p I K ii kk : Nat) (hI : I < m / TILE) (hK : K < p / TILE)
    (hii : ii < TILE) (hkk : kk < TILE) :
    (MatmulTiled a b out m n p).ptr ((I * p + K * TILE) * TILE + (ii * TILE + kk))
      = forLoop (fun J v => forLoop (fun jj v =>
            v + (TILE_BASE_ADDR a.ptr m n I J).get (ii * TILE + jj)
              * (TILE_BASE_ADDR b.ptr n p J K).get (jj * TILE + kk)) TILE v)
          (n / TILE) 0 := by
  have hc0 := tile_index_lt ii kk hii hkk
  refine forLoop_only
    (fun (s : AlignedArray α) v => s.ptr ((I * p + K * TILE) * TILE + (ii * TILE + kk)) = v)
    _ (fun _ => _) (m / TILE) I hI ?_ ?_ out
    (out.ptr ((I * p + K * TILE) * TILE + (ii * TILE + kk))) rfl
  · intro i _ hne s v hs
    refine forLoop_inv
      (fun (s : AlignedArray α) => s.ptr ((I * p + K * TILE) * TILE + (ii * TILE + kk)) = v)
      _ (p / TILE) ?_ s hs
    intro k hk s hs
    refine (MatmulTiled.tile_outside a b s m n p i k _ ?_).1.trans hs
    intro c hc e
    exact hne (tile_region_inj p i k I K c _ hk hK hc hc0 e.symm).1
  · intro s v hs
    refine forLoop_only
      (fun (s : AlignedArray α) v => s.ptr ((I * p + K * TILE) * TILE + (ii * TILE + kk)) = v)
      _ (fun _ => _) (p / TILE) K hK ?_ ?_ s v hs
    · intro k hk hne s v hs
      refine (MatmulTiled.tile_outside a b s m n p I k _ ?_).1.trans hs
      intro c hc e
      exact hne (tile_region_inj p I k I K c _ hk hK hc hc0 e.symm).2
    · intro s v _
      exact MatmulTiled.tile_cell a b s m n p I K ii kk hii hkk

/-- **C3**.  Matmul agreement: for `n` a multiple of `TILE` (and all complete tiles of
an `m × p` output, in particular for `m` and `p` multiples of `TILE`), `MatmulTiled`
applied to the tiled layouts of `A` (`m × n`) and `B` (`n × p`) writes into `out` the
tiled layout of the matrix that naive `Matmul` computes from the row-major `A` and `B`,
whatever the two output buffers held before.  The equality is exact for any addition
and multiplication on the element type. -/
theorem MatmulTiled_agrees_with_Matmul {α : Type} [Zero α] [Add α] [Mul α]
    (A B At Bt o1 o2 : AlignedArray α) (m n p : Nat) (hn : TILE ∣ n)
    (hA : IsTiledLayout m n A.ptr At.ptr) (hB : IsTiledLayout n p B.ptr Bt.ptr) :
    IsTiledLayout m p (Matmul A B o1 m n p).ptr (MatmulTiled At Bt o2 m n p).ptr := by
  intro I hI K hK ii hii kk hkk
  have hrow : I * TILE + ii < m := by unfold TILE at *; omega
  have hcol : K * TILE + kk < p := by unfold TILE at *; omega
  rw [MatmulTiled_cell At Bt o2 m n p I K ii kk hI hK hii hkk,
    Matmul_cell A B o1 m n p (I * TILE + ii) (K * TILE + kk) hrow hcol]
  have hsplit : forLoop (fun j sum => sum + A.ptr ((I * TILE + ii) * n + j)
        * B.ptr (j * p + (K * TILE + kk))) n 0
      = forLoop (fun j sum => sum + A.ptr ((I * TILE + ii) * n + j)
        * B.ptr (j * p + (K * TILE + kk))) (n / TILE * TILE) 0 := by
    rw [Nat.div_mul_cancel hn]
  rw [hsplit, forLoop_blocks]
  refine forLoop_congr _ _ (n / TILE) ?_ 0
  intro J hJ s
  refine forLoop_congr _ _ TILE ?_ s
  intro jj hjj s
  show s + At.ptr ((I * n + J * TILE) * TILE + (ii * TILE + jj))
      * Bt.ptr ((J * p + K * TILE) * TILE + (jj * TILE + kk)) = _
  rw [hA I hI J hJ ii hii jj hjj, hB J hJ K hK jj hjj kk hkk]

/-- Witness of **C3**: an `8 × 16` times a `16 × 8` matrix over the integers, with
positive and negative entries, pre-blocked by `toTiled`. -/
theorem MatmulTiled_agrees_with_Matmul_witness :
    TILE ∣ 16 ∧
    IsTiledLayout 8 16 (fun q => (q : Int) % 7 - 3) (toTiled 16 (fun q => (q : Int) % 7 - 3)) ∧
    IsTiledLayout 16 8 (fun q => 2 - (q : Int) % 5) (toTiled 8 (fun q => 2 - (q : Int) % 5)) ∧
    IsTiledLayout 8 8
      (Matmul (⟨fun q => (q : Int) % 7 - 3, 128⟩ : AlignedArray Int)
        ⟨fun q => 2 - (q : Int) % 5, 128⟩ ⟨fun _ => 9, 64⟩ 8 16 8).ptr
      (MatmulTiled (⟨toTiled 16 (fun q => (q : Int) % 7 - 3), 128⟩ : AlignedArray Int)
        ⟨toTiled 8 (fun q => 2 - (q : Int) % 5), 128⟩ ⟨fun _ => 5, 64⟩ 8 16 8).ptr :=
  ⟨by decide, by decide, by decide,
    MatmulTiled_agrees_with_Matmul (⟨fun q => (q : Int) % 7 - 3, 128⟩ : AlignedArray Int)
      ⟨fun q => 2 - (q : Int) % 5, 128⟩ ⟨toTiled 16 (fun q => (q : Int) % 7 - 3), 128⟩
      ⟨toTiled 8 (fun q => 2 - (q : Int) % 5), 128⟩ ⟨fun _ => 9, 64⟩ ⟨fun _ => 5, 64⟩ 8 16 8
      (by decide) (by decide) (by decide)⟩

/-! ## Reductions -/

/-- Under the size agreement of the reductions the `size_t` block bounds do not wrap. -/
theorem block_bounds (asize osize rs i : Nat) (hsize : asize = osize * rs)
    (h64 : asize < U64) (hi : i < osize) :
    i * rs % U64 = i * rs ∧ (i + 1) * rs % U64 = i * rs + rs := by
  have h1 := Nat.mul_le_mul_right rs (Nat.succ_le_of_lt hi)
  rw [Nat.succ_mul] at h1
  rw [Nat.succ_mul]
  exact ⟨Nat.mod_eq_of_lt (by omega), Nat.mod_eq_of_lt (by omega)⟩

theorem ReduceSum_cell {α : Type} [Zero α] [Add α] (a out : AlignedArray α) (rs i : Nat)
    (hi : i < out.size) :
    (ReduceSum a out rs).ptr i
      = accumulate a.ptr (i * rs % U64) ((i + 1) * rs % U64) 0 :=
  scatter_last (fun i => i)
    (fun i => accumulate a.ptr (i * rs % U64) ((i + 1) * rs % U64) 0)
    out.size out i hi (fun _ h1 _ => Nat.ne_of_gt h1)

/-- **C6**.  `ReduceSum` correctness: for every `reduce_size` and every `a` with
`a.size = out.size * reduce_size`, after `ReduceSum(a, out, reduce_size)` every `out[i]`
with `i < out.size` is the sum of `a[i * reduce_size], …, a[(i + 1) * reduce_size - 1]`;
`reduce_size = 1` gives `out[i] = a[i]`, and `reduce_size = a.size` gives the total of
`a` in `out[0]`.  Positions from `out.size` on and the element count are kept. -/
theorem ReduceSum_sums_blocks {α : Type} [AddCommMonoid α] (a out : AlignedArray α)
    (reduce_size : Nat) (hsize : a.size = out.size * reduce_size) (h64 : a.size < U64) :
    (∀ i, i < out.size →
      (ReduceSum a out reduce_size).ptr i
        = ∑ k in Finset.range reduce_size, a.ptr (i * reduce_size + k)) ∧
    (reduce_size = 1 → ∀ i, i < out.size → (ReduceSum a out reduce_size).ptr i = a.ptr i) ∧
    (reduce_size = a.size → 0 < out.size →
      (ReduceSum a out reduce_size).ptr 0 = ∑ k in Finset.range a.size, a.ptr k) ∧
    (∀ q, out.size ≤ q → (ReduceSum a out reduce_size).ptr q = out.ptr q) ∧
    (ReduceSum a out reduce_size).size = out.size := by
  have main : ∀ i, i < out.size →
      (ReduceSum a out reduce_size).ptr i
        = ∑ k in Finset.range reduce_size, a.ptr (i * reduce_size + k) := by
    intro i hi
    obtain ⟨e1, e2⟩ := block_bounds a.size out.size reduce_size i hsize h64 hi
    rw [ReduceSum_cell a out reduce_size i hi, e1, e2]
    unfold accumulate
    rw [Nat.add_sub_cancel_left, forLoop_add_eq_sum, zero_add]
  refine ⟨main, ?_, ?_, ?_, ?_⟩
  · intro h1 i hi
    rw [main i hi, h1]
    simp
  · intro h1 h0
    rw [main 0 h0, h1]
    simp
  · intro q hq
    exact scatter_untouched (fun i => i)
      (fun i => accumulate a.ptr (i * reduce_size % U64) ((i + 1) * reduce_size % U64) 0)
      out.size out q (fun _ h1 => Nat.ne_of_lt (Nat.lt_of_lt_of_le h1 hq))
  · exact scatter_size (fun i => i)
      (fun i => accumulate a.ptr (i * reduce_size % U64) ((i + 1) * reduce_size % U64) 0)
      out.size out

/-- Witness of **C6**: `[1, 2, 3, 4, 5, 6]` reduced in blocks of `3`; the second block
sums to `15`. -/
theorem ReduceSum_sums_blocks_witness :
    (6 : Nat) = 2 * 3 ∧ 6 < U64 ∧
    (ReduceSum (⟨fun q => (q : Int) + 1, 6⟩ : AlignedArray Int) ⟨fun _ => 0, 2⟩ 3).ptr 1 = 15 :=
  ⟨by decide, by decide,
    ((ReduceSum_sums_blocks (⟨fun q => (q : Int) + 1, 6⟩ : AlignedArray Int) ⟨fun _ => 0, 2⟩ 3
      (by decide) (by decide)).1 1 (by decide)).trans (by decide)⟩

/-- The scan of `std::max_element` over `mem[first], …, mem[first + n]` ends at an index
of the range whose element is at least every element of the range. -/
theorem max_scan_spec {α : Type} [LinearOrder α] (mem : Nat → α) (first n : Nat) :
    first ≤ forLoop (fun k largest =>
        if mem largest < mem (first + 1 + k) then first + 1 + k else largest) n first ∧
    forLoop (fun k largest =>
        if mem largest < mem (first + 1 + k) then first + 1 + k else largest) n first
      ≤ first + n ∧
    ∀ k, k ≤ n → mem (first + k) ≤ mem (forLoop (fun k largest =>
        if mem largest < mem (first + 1 + k) then first + 1 + k else largest) n first) := by
  induction n with
  | zero =>
    refine ⟨Nat.le_refl _, Nat.le_refl _, ?_⟩
    intro k hk
    have : k = 0 := by omega
    subst this
    exact le_refl _
  | succ n ih =>
    obtain ⟨h1, h2, h3⟩ := ih
    show first ≤ (if mem _ < mem (first + 1 + n) then first + 1 + n else _) ∧
      (if mem _ < mem (first + 1 + n) then first + 1 + n else _) ≤ first + (n + 1) ∧
      ∀ k, k ≤ n + 1 → mem (first + k)
        ≤ mem (if mem _ < mem (first + 1 + n) then first + 1 + n else _)
    split
    · rename_i hlt
      refine ⟨by omega, by omega, ?_⟩
      intro k hk
      rcases Nat.lt_or_ge k (n + 1) with hk1 | hk1
      · exact le_of_lt (lt_of_le_of_lt (h3 k (by omega)) hlt)
      · have : first + k = first + 1 + n := by omega
        rw [this]
    · rename_i hnlt
      refine ⟨h1, by omega, ?_⟩
      intro k hk
      rcases Nat.lt_or_ge k (n + 1) with hk1 | hk1
      · exact h3 k (by omega)
      · have : first + k = first + 1 + n := by omega
        rw [this]
        exact not_lt.mp hnlt

/-- On a non-empty range `std::max_element` returns the index of a largest element. -/
theorem max_element_spec {α : Type} [LinearOrder α] (mem : Nat → α) (first rs : Nat)
    (hrs : 1 ≤ rs) :
    (∃ k, k < rs ∧ max_element mem first (first + rs) = first + k) ∧
    ∀ k, k < rs → mem (first + k) ≤ mem (max_element mem first (first + rs)) := by
  unfold max_element
  rw [if_neg (by omega)]
  have hn : first + rs - first - 1 = rs - 1 := by omega
  rw [hn]
  obtain ⟨h1, h2, h3⟩ := max_scan_spec mem first (rs - 1)
  generalize forLoop (fun k largest =>
    if mem largest < mem (first + 1 + k) then first + 1 + k else largest) (rs - 1) first = r
    at h1 h2 h3 ⊢
  exact ⟨⟨r - first, by omega, by omega⟩, fun k hk => h3 k (by omega)⟩

/-- **C7**.  `ReduceMax` correctness: for every `reduce_size ≥ 1` and every `a` with
`a.size = out.size * reduce_size`, after `ReduceMax(a, out, reduce_size)` every `out[i]`
with `i < out.size` is the maximum of the block `a[i * reduce_size .. (i + 1) *
reduce_size)`: it is an element of the block and at least every element of the block;
`reduce_size = 1` gives `out[i] = a[i]`. -/
theorem ReduceMax_takes_block_maximum {α : Type} [LinearOrder α] (a out : AlignedArray α)
    (reduce_size : Nat) (hrs : 1 ≤ reduce_size) (hsize : a.size = out.size * reduce_size)
    (h64 : a.size < U64) :
    (∀ i, i < out.size →
      (∃ k, k < reduce_size ∧
        (ReduceMax a out reduce_size).ptr i = a.ptr (i * reduce_size + k)) ∧
      (∀ k, k < reduce_size →
        a.ptr (i * reduce_size + k) ≤ (ReduceMax a out reduce_size).ptr i)) ∧
    (reduce_size = 1 → ∀ i, i < out.size → (ReduceMax a out reduce_size).ptr i = a.ptr i) := by
  have cell : ∀ i, i < out.size →
      (ReduceMax a out reduce_size).ptr i
        = a.ptr (max_element a.ptr (i * reduce_size) (i * reduce_size + reduce_size)) := by
    intro i hi
    obtain ⟨e1, e2⟩ := block_bounds a.size out.size reduce_size i hsize h64 hi
    have h : (ReduceMax a out reduce_size).ptr i
        = a.ptr (max_element a.ptr (i * reduce_size % U64) ((i + 1) * reduce_size % U64)) :=
      scatter_last (fun i => i)
      (fun i => a.ptr (max_element a.ptr (i * reduce_size % U64)
        ((i + 1) * reduce_size % U64)))
      out.size out i hi (fun _ h1 _ => Nat.ne_of_gt h1)
    rw [e1, e2] at h
    exact h
  have main : ∀ i, i < out.size →
      (∃ k, k < reduce_size ∧
        (ReduceMax a out reduce_size).ptr i = a.ptr (i * reduce_size + k)) ∧
      (∀ k, k < reduce_size →
        a.ptr (i * reduce_size + k) ≤ (ReduceMax a out reduce_size).ptr i) := by
    intro i hi
    obtain ⟨⟨k, hk, hidx⟩, hmax⟩ := max_element_spec a.ptr (i * reduce_size) reduce_size hrs
    rw [cell i hi]
    exact ⟨⟨k, hk, by rw [hidx]⟩, hmax⟩
  refine ⟨main, ?_⟩
  intro h1 i hi
  obtain ⟨⟨k, hk, hv⟩, _⟩ := main i hi
  have hk0 : k = 0 := by omega
  rw [hv, hk0, h1, Nat.mul_one, Nat.add_zero]

/-- Witness of **C7**: `[3, 9, 2, 7, 7, 1]` reduced in blocks of `3`; the maximum of the
second block is `7`. -/
theorem ReduceMax_takes_block_maximum_witness :
    1 ≤ 3 ∧ (6 : Nat) = 2 * 3 ∧ 6 < U64 ∧
    (∃ k, k < 3 ∧
      (ReduceMax (⟨fun q => [3, 9, 2, 7, 7, 1].getD q 0, 6⟩ : AlignedArray Int)
        ⟨fun _ => 0, 2⟩ 3).ptr 1
        = (fun q => [3, 9, 2, 7, 7, 1].getD q (0 : Int)) (1 * 3 + k)) ∧
    (∀ k, k < 3 → (fun q => [3, 9, 2, 7, 7, 1].getD q (0 : Int)) (1 * 3 + k)
      ≤ (ReduceMax (⟨fun q => [3, 9, 2, 7, 7, 1].getD q 0, 6⟩ : AlignedArray Int)
        ⟨fun _ => 0, 2⟩ 3).ptr 1) :=
  ⟨by decide, by decide, by decide,
    (ReduceMax_takes_block_maximum
      (⟨fun q => [3, 9, 2, 7, 7, 1].getD q 0, 6⟩ : AlignedArray Int) ⟨fun _ => 0, 2⟩ 3
      (by decide) (by decide) (by decide)).1 1 (by decide)⟩

/-! ## Compact and transposed views -/

theorem rowMajorStrides_length (shape : List Nat) :
    (rowMajorStrides shape).length = shape.length := by
  induction shape with
  | nil => rfl
  | cons d ds ih => simp [rowMajorStrides, ih]

theorem ravelRev_append (xs ds : List Nat) (x d : Nat) (h : xs.length = ds.length) :
    ravelRev (xs ++ [x]) (ds ++ [d]) = ravelRev xs ds + ds.prod * x := by
  induction xs generalizing ds with
  | nil =>
    cases ds with
    | nil => simp [ravelRev]
    | cons e es => simp at h
  | cons y ys ih =>
    cases ds with
    | nil => simp at h
    | cons e es =>
      show y + e * ravelRev (ys ++ [x]) (es ++ [d]) = y + e * ravelRev ys es + (e :: es).prod * x
      rw [ih es (by simpa using h), List.prod_cons]
      ring

/-- With the row-major strides the physical offset of a multi-index is its row-major
linear index. -/
theorem physOffset_rowMajor (shape idx : List Nat) (h : idx.length = shape.length) :
    physOffset 0 idx (rowMajorStrides shape) = ravel shape idx := by
  induction shape generalizing idx with
  | nil =>
    cases idx with
    | nil => rfl
    | cons x xs => simp at h
  | cons d ds ih =>
    cases idx with
    | nil => simp at h
    | cons x xs =>
      have hl : xs.length = ds.length := by simpa using h
      have ih2 := ih xs hl
      unfold physOffset ravel at ih2 ⊢
      simp only [rowMajorStrides, List.zipWith_cons_cons, List.sum_cons, List.reverse_cons]
      rw [ravelRev_append _ _ _ _ (by simpa using hl), List.prod_reverse, ← ih2]
      ring

/-- The largest products of a row-major view stay below the product of the extents. -/
theorem rowMajor_corner_lt (shape : List Nat) (hpos : ∀ d ∈ shape, 0 < d) :
    ∀ t ∈ List.zipWith (fun d s => (d - 1) * s) shape (rowMajorStrides shape),
      t < shape.prod := by
  induction shape with
  | nil => simp [rowMajorStrides]
  | cons d ds ih =>
    have hd : 0 < d := hpos d (List.mem_cons_self d ds)
    have hds : ∀ e ∈ ds, 0 < e := fun e he => hpos e (List.mem_cons_of_mem d he)
    have hp : 0 < ds.prod := List.prod_pos hds
    simp only [rowMajorStrides, List.zipWith_cons_cons, List.mem_cons, forall_eq_or_imp,
      List.prod_cons]
    constructor
    · have : (d - 1) * ds.prod + ds.prod = d * ds.prod := by
        rw [← Nat.succ_mul, Nat.succ_eq_add_one, Nat.sub_add_cancel hd]
      omega
    · intro t ht
      have h1 := ih hds t ht
      have h2 : ds.prod ≤ d * ds.prod := Nat.le_mul_of_pos_left _ hd
      omega

/-- The statement of C11 where the 32-bit arithmetic does not wrap.
`Compact` is the identity on an already-compact view that fits
the 32-bit range: for every shape of positive extents whose product is below `2 ^ 32`,
with the row-major strides implied by the shape and offset `0`, after `Compact`
`out[i] = a[i]` for every `i < Π shape`. -/
theorem Compact_identity_on_compact_view {α : Type} (a out : AlignedArray α)
    (shape : List Nat) (h32 : shape.prod < U32) (i : Nat) (hi : i < shape.prod) :
    (Compact a out shape (rowMajorStrides shape) 0).ptr i = a.ptr i := by
  have hpos := prod_pos_of_lt hi
  have hphys : physOffset 0 (multiIndex shape i) (rowMajorStrides shape) = i := by
    rw [physOffset_rowMajor shape _ (multiIndex_length shape i), ravel_multiIndex shape i hi]
  have hfit : Fits32 shape (rowMajorStrides shape) :=
    ⟨h32, fun t ht => Nat.lt_trans (rowMajor_corner_lt shape hpos t ht) h32⟩
  have h64 : physOffset 0 (multiIndex shape i) (rowMajorStrides shape) < U64 := by
    rw [hphys]
    exact Nat.lt_trans (Nat.lt_trans hi h32) (by decide)
  rw [Compact_ptr a out shape _ 0 i (by rw [shapeCount_eq_prod shape h32]; exact hi),
    stridedOffset_of_fits shape _ 0 i (rowMajorStrides_length shape) hfit hi h64, hphys]

/-- An instance of the statement of C11 inside the 32-bit range:
the scenario of the specification, shape `[2, 3]` with strides
`[3, 1]` over `[1, 2, 3, 4, 5, 6]`; the element `4` of the output is `5`. -/
theorem Compact_identity_on_compact_view_witness :
    rowMajorStrides [2, 3] = [3, 1] ∧ ([2, 3] : List Nat).prod < U32 ∧
    4 < ([2, 3] : List Nat).prod ∧
    (Compact (⟨fun k => (k : Int) + 1, 6⟩ : AlignedArray Int) ⟨fun _ => 0, 6⟩ [2, 3]
      (rowMajorStrides [2, 3]) 0).ptr 4 = (4 : Int) + 1 :=
  ⟨by decide, by decide, by decide,
    Compact_identity_on_compact_view (⟨fun k => (k : Int) + 1, 6⟩ : AlignedArray Int)
      ⟨fun _ => 0, 6⟩ [2, 3] (by decide) 4 (by decide)⟩

/-- **C11**, evaluated where the code breaks it,
when the product of the extents leaves the 32-bit range:
the shape `[65536, 65536]` has positive extents and row-major strides `[65536, 1]`, but
the loop bound is `65536 * 65536 mod 2 ^ 32 = 0`, so `out[0]` keeps its old value `0`
instead of `a[0] = 1`. -/
theorem Compact_identity_fails_wide_shape :
    (∀ d ∈ ([65536, 65536] : List Nat), 0 < d) ∧
    rowMajorStrides [65536, 65536] = [65536, 1] ∧
    0 < ([65536, 65536] : List Nat).prod ∧
    (Compact (⟨fun _ => 1, 4294967296⟩ : AlignedArray Int) ⟨fun _ => 0, 4294967296⟩
        [65536, 65536] (rowMajorStrides [65536, 65536]) 0).ptr 0
      ≠ (fun _ => (1 : Int)) 0 := by
  refine ⟨by decide, by decide, by decide, by decide⟩

theorem multiIndex_pair (r c i j : Nat) (hi : i < r) (hj : j < c) :
    multiIndex [r, c] (i * c + j) = [i, j] := by
  have h1 : (i * c + j) % c = j := by
    rw [Nat.add_comm, Nat.add_mul_mod_self_right, Nat.mod_eq_of_lt hj]
  have h2 : (i * c + j) / c = i := by
    rw [Nat.add_comm, Nat.add_mul_div_right _ _ (by omega : 0 < c), Nat.div_eq_of_lt hj,
      Nat.zero_add]
  simp [multiIndex, unravelRev, h1, h2, Nat.mod_eq_of_lt hi]

/-- The statement of C12 where the 32-bit arithmetic does not wrap.
`Compact` of a transposed view materialises the transpose when
the element count fits the 32-bit range: for every `r, c ≥ 1` with `r * c < 2 ^ 32`,
`Compact` with shape `[r, c]`, strides `[1, r]` and offset `0` gives
`out[i * c + j] = a[j * r + i]` for all `i < r`, `j < c`. -/
theorem Compact_transposed_view {α : Type} (a out : AlignedArray α) (r c : Nat)
    (h32 : r * c < U32) (i j : Nat) (hi : i < r) (hj : j < c) :
    (Compact a out [r, c] [1, r] 0).ptr (i * c + j) = a.ptr (j * r + i) := by
  have hprod : ([r, c] : List Nat).prod = r * c := by simp
  have hlt : i * c + j < r * c := row_index_lt r c i j hi hj
  have hfit : Fits32 [r, c] [1, r] := by
    refine ⟨by rw [hprod]; exact h32, ?_⟩
    intro t ht
    simp only [List.zipWith_cons_cons, List.zipWith_nil_left, List.mem_cons,
      List.mem_nil_iff, or_false] at ht
    have h1 : (c - 1) * r + r = r * c := by
      rw [← Nat.succ_mul, Nat.succ_eq_add_one, Nat.sub_add_cancel (by omega : 1 ≤ c),
        Nat.mul_comm]
    have h2 : r ≤ r * c := Nat.le_mul_of_pos_right _ (by omega)
    rcases ht with ht | ht
    · rw [ht]; omega
    · rw [ht]; omega
  have hphys : physOffset 0 (multiIndex [r, c] (i * c + j)) [1, r] = j * r + i := by
    rw [multiIndex_pair r c i j hi hj]
    simp [physOffset]
    omega
  have hjr : j * r + i < r * c := by
    have := row_index_lt c r j i hj hi
    rw [Nat.mul_comm c r] at this
    exact this
  have h64 : physOffset 0 (multiIndex [r, c] (i * c + j)) [1, r] < U64 := by
    rw [hphys]
    exact Nat.lt_trans (Nat.lt_trans hjr h32) (by decide)
  rw [Compact_ptr a out [r, c] [1, r] 0 (i * c + j)
      (by rw [shapeCount_eq_prod _ hfit.1, hprod]; exact hlt),
    stridedOffset_of_fits [r, c] [1, r] 0 (i * c + j) rfl hfit (by rw [hprod]; exact hlt) h64,
    hphys]

/-- An instance of the statement of C12 inside the 32-bit range:
the scenario of the specification, shape `[2, 3]` with strides
`[1, 2]` over `[1, 2, 3, 4, 5, 6]`; the output element `(1, 1)` is `a[1 * 2 + 1] = 4`. -/
theorem Compact_transposed_view_witness :
    2 * 3 < U32 ∧ 1 < 2 ∧ 1 < 3 ∧
    (Compact (⟨fun k => (k : Int) + 1, 6⟩ : AlignedArray Int) ⟨fun _ => 0, 6⟩ [2, 3] [1, 2] 0).ptr
      (1 * 3 + 1) = ((1 * 2 + 1 : Nat) : Int) + 1 :=
  ⟨by decide, by decide, by decide,
    Compact_transposed_view (⟨fun k => (k : Int) + 1, 6⟩ : AlignedArray Int) ⟨fun _ => 0, 6⟩
      2 3 (by decide) 1 1 (by decide) (by decide)⟩

/-- **C12**, evaluated where the code breaks it,
when `r * c` leaves the 32-bit range: for `r = c = 65536`
and a buffer `a` of `r * c` elements the loop bound is `65536 * 65536 mod 2 ^ 32 = 0`,
so `out[0 * c + 0]` keeps its old value `0` instead of `a[0 * r + 0] = 1`. -/
theorem Compact_transposed_fails_wide_shape :
    1 ≤ 65536 ∧ 65536 * 65536 ≤ (⟨fun _ => 1, 4294967296⟩ : AlignedArray Int).size ∧
    (Compact (⟨fun _ => 1, 4294967296⟩ : AlignedArray Int) ⟨fun _ => 0, 4294967296⟩
        [65536, 65536] [1, 65536] 0).ptr (0 * 65536 + 0)
      ≠ (⟨fun _ => 1, 4294967296⟩ : AlignedArray Int).ptr (0 * 65536 + 0) := by
  refine ⟨by decide, by decide, by decide⟩

/-! ## Laws of the naive product -/

/-- **C13**.  Identity law of naive `Matmul` (exact arithmetic): for every `n`, `p` and
every row-major `n × p` matrix `b`, `Matmul` with `a` the `n × n` identity matrix
(`m = n`) writes `out[q] = b[q]` for every `q < n * p`. -/
theorem Matmul_identity_left {α : Type} [NonAssocSemiring α] (a b out : AlignedArray α)
    (n p : Nat)
    (ha : ∀ i, i < n → ∀ j, j < n → a.ptr (i * n + j) = if i = j then 1 else 0)
    (q : Nat) (hq : q < n * p) :
    (Matmul a b out n n p).ptr q = b.ptr q := by
  have hp : 0 < p := by
    rcases Nat.eq_zero_or_pos p with h0 | h0
    · subst h0; simp at hq
    · exact h0
  have hk : q % p < p := Nat.mod_lt _ hp
  have hi : q / p < n := by
    rw [Nat.mul_comm] at hq
    exact Nat.div_lt_of_lt_mul hq
  have hqe : q / p * p + q % p = q := by
    rw [Nat.mul_comm]; exact Nat.div_add_mod q p
  have hcell := Matmul_cell a b out n n p (q / p) (q % p) hi hk
  rw [hqe] at hcell
  rw [hcell, forLoop_add_eq_sum, zero_add]
  have hsum : ∑ j in Finset.range n, a.ptr (q / p * n + j) * b.ptr (j * p + q % p)
      = ∑ j in Finset.range n, if q / p = j then b.ptr (j * p + q % p) else 0 := by
    refine Finset.sum_congr rfl ?_
    intro j hj
    rw [ha (q / p) hi j (Finset.mem_range.mp hj)]
    split
    · exact one_mul _
    · exact zero_mul _
  rw [hsum, Finset.sum_ite_eq, if_pos (Finset.mem_range.mpr hi), hqe]

/-- Witness of **C13**: the scenario of the specification, the `2 × 2` identity
`[1, 0, 0, 1]` times `[1, 2, 3, 4]`; the element `2` of the output is `b[2] = 3`. -/
theorem Matmul_identity_left_witness :
    (∀ i, i < 2 → ∀ j, j < 2 →
      (fun q => [1, 0, 0, 1].getD q (0 : Int)) (i * 2 + j) = if i = j then 1 else 0) ∧
    2 < 2 * 2 ∧
    (Matmul (⟨fun q => [1, 0, 0, 1].getD q 0, 4⟩ : AlignedArray Int)
        ⟨fun q => [1, 2, 3, 4].getD q 0, 4⟩ ⟨fun _ => 9, 4⟩ 2 2 2).ptr 2
      = (fun q => [1, 2, 3, 4].getD q (0 : Int)) 2 :=
  ⟨by decide, by decide,
    Matmul_identity_left (⟨fun q => [1, 0, 0, 1].getD q 0, 4⟩ : AlignedArray Int)
      ⟨fun q => [1, 2, 3, 4].getD q 0, 4⟩ ⟨fun _ => 9, 4⟩ 2 2 (by decide) 2 (by decide)⟩

/-! ## Elementwise kernels -/

theorem FUNC_EWISE_BINARY_cell {α : Type} (fn : α → α → α) (a b out : AlignedArray α)
    (i : Nat) (hi : i < a.size) :
    (FUNC_EWISE_BINARY fn a b out).ptr i = fn (a.ptr i) (b.ptr i) :=
  scatter_last (fun i => i) (fun i => fn (a.ptr i) (b.ptr i)) a.size out i hi
    (fun _ h1 _ => Nat.ne_of_gt h1)

theorem FUNC_SCALAR_cell {α : Type} (fn : α → α → α) (a : AlignedArray α) (val : α)
    (out : AlignedArray α) (i : Nat) (hi : i < a.size) :
    (FUNC_SCALAR fn a val out).ptr i = fn (a.ptr i) val :=
  scatter_last (fun i => i) (fun i => fn (a.ptr i) val) a.size out i hi
    (fun _ h1 _ => Nat.ne_of_gt h1)

/-- **C14**.  Subtraction law of the elementwise kernels (exact arithmetic): for all
`a` and `b` of equal size, `ScalarMul(b, -1, t)` followed by `EwiseAdd(a, t, out)` gives
`out[i] = a[i] - b[i]` for every `i < a.size`. -/
theorem EwiseAdd_ScalarMul_neg_one {α : Type} [Ring α] (a b t out : AlignedArray α)
    (hsize : a.size = b.size) (i : Nat) (hi : i < a.size) :
    (EwiseAdd a (ScalarMul b (-1) t) out).ptr i = a.ptr i - b.ptr i := by
  unfold EwiseAdd ScalarMul
  rw [FUNC_EWISE_BINARY_cell _ a _ out i hi,
    FUNC_SCALAR_cell _ b (-1) t i (by rw [← hsize]; exact hi)]
  show a.ptr i + b.ptr i * -1 = a.ptr i - b.ptr i
  rw [mul_neg_one, sub_eq_add_neg]

/-- Witness of **C14**: `a = [5, 7, 9]`, `b = [1, 2, 3]` as functions of the index; the
element `2` of the output is `9 - 3`. -/
theorem EwiseAdd_ScalarMul_neg_one_witness :
    (3 : Nat) = 3 ∧ 2 < 3 ∧
    (EwiseAdd (⟨fun k => 2 * (k : Int) + 5, 3⟩ : AlignedArray Int)
      (ScalarMul ⟨fun k => (k : Int) + 1, 3⟩ (-1) ⟨fun _ => 0, 3⟩) ⟨fun _ => 0, 3⟩).ptr 2
      = (2 * ((2 : Nat) : Int) + 5) - (((2 : Nat) : Int) + 1) :=
  ⟨rfl, by decide,
    EwiseAdd_ScalarMul_neg_one (⟨fun k => 2 * (k : Int) + 5, 3⟩ : AlignedArray Int)
      ⟨fun k => (k : Int) + 1, 3⟩ ⟨fun _ => 0, 3⟩ ⟨fun _ => 0, 3⟩ rfl 2 (by decide)⟩

/-- **C15**.  Reflexivity of the comparison kernels (exact comparison): for every `a`,
`EwiseEq(a, a, out)` and `EwiseGe(a, a, out)` both write `1`, the true value of the
element type, to `out[i]` for every `i < a.size`. -/
theorem EwiseEq_EwiseGe_reflexive {α : Type} [DecidableEq α] [Preorder α]
    [DecidableRel (fun (x y : α) => x ≤ y)] [Zero α] [One α] (a out : AlignedArray α)
    (i : Nat) (hi : i < a.size) :
    (EwiseEq a a out).ptr i = 1 ∧ (EwiseGe a a out).ptr i = 1 := by
  unfold EwiseEq EwiseGe
  rw [FUNC_EWISE_BINARY_cell _ a a out i hi, FUNC_EWISE_BINARY_cell _ a a out i hi]
  exact ⟨if_pos rfl, if_pos (le_refl _)⟩

/-- Witness of **C15**: the element `1` of `[4, 5, 6]` compared with itself. -/
theorem EwiseEq_EwiseGe_reflexive_witness :
    1 < 3 ∧
    (EwiseEq (⟨fun k => (k : Int) + 4, 3⟩ : AlignedArray Int) ⟨fun k => (k : Int) + 4, 3⟩
      ⟨fun _ => 0, 3⟩).ptr 1 = 1 ∧
    (EwiseGe (⟨fun k => (k : Int) + 4, 3⟩ : AlignedArray Int) ⟨fun k => (k : Int) + 4, 3⟩
      ⟨fun _ => 0, 3⟩).ptr 1 = 1 :=
  ⟨by decide,
    EwiseEq_EwiseGe_reflexive (⟨fun k => (k : Int) + 4, 3⟩ : AlignedArray Int) ⟨fun _ => 0, 3⟩
      1 (by decide)⟩

/-! ## Fill -/

/-- Below `INT_MAX + 1` elements `Fill` is the plain store loop. -/
theorem Fill_of_le_INT_MAX {α : Type} (out : AlignedArray α) (val : α)
    (h : out.size ≤ INT_MAX) :
    Fill out val = some (forLoop (fun i out => out.set i val) out.size out) := by
  unfold Fill
  refine forLoop_sim (fun (st : Option (AlignedArray α)) (v : AlignedArray α) => st = some v)
    _ _ out.size ?_ (some out) out rfl
  intro k hk st v hst
  subst hst
  show (if k < INT_MAX then some (v.set k val) else none) = some (v.set k val)
  rw [if_pos (by omega)]

/-- On a buffer that fits an `int` counter, `Fill` writes the value everywhere and
keeps the element count. -/
theorem Fill_writes_everywhere {α : Type} (out : AlignedArray α) (val : α)
    (h : out.size ≤ INT_MAX) :
    ∃ r, Fill out val = some r ∧ (∀ i, i < out.size → r.ptr i = val) ∧ r.size = out.size :=
  ⟨_, Fill_of_le_INT_MAX out val h,
    fun i hi => scatter_last (fun i => i) (fun _ => val) out.size out i hi
      (fun _ h1 _ => Nat.ne_of_gt h1),
    scatter_size (fun i => i) (fun _ => val) out.size out⟩

/-- A counted loop that becomes undefined at iteration `M` stays undefined. -/
theorem forLoop_undefined_from {σ : Type} (step : Nat → σ → σ) (M d : Nat) (st : Option σ) :
    forLoop (fun k (st : Option σ) =>
      st.bind (fun s => if k < M then some (step k s) else none)) (M + 1 + d) st = none := by
  induction d with
  | zero =>
    show (forLoop _ M st).bind _ = none
    cases forLoop (fun k (st : Option σ) =>
      st.bind (fun s => if k < M then some (step k s) else none)) M st with
    | none => rfl
    | some v =>
      show (if M < M then some (step M v) else none) = none
      rw [if_neg (Nat.lt_irrefl _)]
  | succ d ih =>
    show (forLoop _ (M + 1 + d) st).bind _ = none
    rw [ih]
    rfl

/-- Past `INT_MAX` elements the counter of `Fill` overflows: the execution is
undefined. -/
theorem Fill_undefined_of_gt_INT_MAX {α : Type} (out : AlignedArray α) (val : α)
    (h : INT_MAX < out.size) : Fill out val = none := by
  unfold Fill
  obtain ⟨d, hd⟩ : ∃ d, out.size = INT_MAX + 1 + d := ⟨out.size - (INT_MAX + 1), by omega⟩
  rw [hd]
  exact forLoop_undefined_from (fun k (out : AlignedArray α) => out.set k val) INT_MAX d
    (some out)

/-- **C16**, evaluated at a buffer of `2 ^ 31 + 1` elements: the `int` counter of `Fill`
reaches `INT_MAX = 2 ^ 31 - 1` with elements left to write, the increment overflows and
the call has no defined result, so nothing guarantees `out[i] = val`. -/
theorem Fill_fails_on_large_buffer :
    (⟨fun _ => 0, 2147483649⟩ : AlignedArray Int).size < U64 ∧
    Fill (⟨fun _ => 0, 2147483649⟩ : AlignedArray Int) 1 = none :=
  ⟨by decide, Fill_undefined_of_gt_INT_MAX _ _ (by decide)⟩

/-! ## The 32-bit arithmetic of the strided kernels, evaluated -/

/-- **C17**, evaluated where the 32-bit arithmetic wraps.  For the shape
`[65536, 65536]` the loop bound `n` of `Compact` is `0` although the product of the
extents is `2 ^ 32`, and `Compact` leaves `out[0]` as it was.  For the shape `[3]` with
stride `2 ^ 31` the term added for the index component `2` is `2 * 2 ^ 31 mod 2 ^ 32 = 0`:
the source offset computed for the logical index `2` is `0`, not `2 * 2 ^ 31 = 2 ^ 32`. -/
theorem Compact_count_and_term_wrap :
    shapeCount [65536, 65536] = 0 ∧ ([65536, 65536] : List Nat).prod = 4294967296 ∧
    (Compact (⟨fun _ => 1, 1⟩ : AlignedArray Int) ⟨fun _ => 0, 4294967296⟩
      [65536, 65536] [0, 0] 0).ptr 0 = 0 ∧
    multiIndex [3] 2 = [2] ∧ stridedOffset [3] [2147483648] 0 2 = 0 ∧
    physOffset 0 (multiIndex [3] 2) [2147483648] = 4294967296 := by
  refine ⟨by decide, by decide, by decide, by decide, by decide, by decide⟩

/-- The statement of C18 where the 32-bit arithmetic does not wrap.
Scatter-then-compact round trip on every view that fits the
machine words: when the product of the extents and every `(shape[j] - 1) * strides[j]`
are below `2 ^ 32` and the view maps distinct logical indices to distinct physical
offsets inside `out`, then for every source `a` and all initial contents of `out` and
`c`, `EwiseSetitem(a, out, …)` followed by `Compact(out, c, …)` with the same view gives
`c[i] = a[i]` for every `i < Π shape`. -/
theorem EwiseSetitem_then_Compact_round_trip {α : Type} (a out c : AlignedArray α)
    (shape strides : List Nat) (offset : Nat)
    (hlen : strides.length = shape.length) (hfit : Fits32 shape strides)
    (hinj : ∀ i, i < shape.prod → ∀ j, j < shape.prod →
      physOffset offset (multiIndex shape i) strides
        = physOffset offset (multiIndex shape j) strides → i = j)
    (hin : ∀ i, i < shape.prod → physOffset offset (multiIndex shape i) strides < out.size)
    (hsize : out.size ≤ U64) (i : Nat) (hi : i < shape.prod) :
    (Compact (EwiseSetitem a out shape strides offset) c shape strides offset).ptr i
      = a.ptr i := by
  have hn := shapeCount_eq_prod shape hfit.1
  have key : ∀ i, i < shape.prod →
      stridedOffset shape strides offset i = physOffset offset (multiIndex shape i) strides :=
    fun i hi => stridedOffset_of_fits shape strides offset i hlen hfit hi
      (Nat.lt_of_lt_of_le (hin i hi) hsize)
  rw [Compact_ptr _ c shape strides offset i (by rw [hn]; exact hi)]
  refine scatter_last (fun i => stridedOffset shape strides offset i) (fun i => a.ptr i)
    (shapeCount shape) out i (by rw [hn]; exact hi) ?_
  intro k hik hk e
  rw [hn] at hk
  have := hinj k hk i hi (by rw [← key k hk, ← key i hi]; exact e)
  omega

/-- An instance of the statement of C18 inside the 32-bit range:
the transposed view `[2, 3]`/`[1, 2]` over a buffer of `6`
elements; the element `4` of the source comes back. -/
theorem EwiseSetitem_then_Compact_round_trip_witness :
    ([1, 2] : List Nat).length = [2, 3].length ∧ Fits32 [2, 3] [1, 2] ∧
    (∀ i, i < ([2, 3] : List Nat).prod → ∀ j, j < ([2, 3] : List Nat).prod →
      physOffset 0 (multiIndex [2, 3] i) [1, 2] = physOffset 0 (multiIndex [2, 3] j) [1, 2] →
      i = j) ∧
    (∀ i, i < ([2, 3] : List Nat).prod → physOffset 0 (multiIndex [2, 3] i) [1, 2] < 6) ∧
    (Compact (EwiseSetitem (⟨fun k => (k : Int) + 10, 6⟩ : AlignedArray Int) ⟨fun _ => 0, 6⟩
      [2, 3] [1, 2] 0) ⟨fun _ => 7, 6⟩ [2, 3] [1, 2] 0).ptr 4 = (4 : Int) + 10 :=
  ⟨by decide, by decide, by decide, by decide,
    EwiseSetitem_then_Compact_round_trip (⟨fun k => (k : Int) + 10, 6⟩ : AlignedArray Int)
      ⟨fun _ => 0, 6⟩ ⟨fun _ => 7, 6⟩ [2, 3] [1, 2] 0 (by decide) (by decide) (by decide)
      (by decide) (by decide) 4 (by decide)⟩

/-- **C18**, evaluated where the code breaks it,
when a product `idx[j] * strides[j]` leaves the 32-bit
range: the view of shape `[3]` with stride `2 ^ 31` maps `0, 1, 2` to the distinct
offsets `0`, `2 ^ 31`, `2 ^ 32` inside a buffer of `2 ^ 32 + 1` elements, but both
kernels compute the offset `0` for the index `2`, so `a[2]` is stored over `a[0]` and
`c[0]` comes back as `a[2] = 12`, not `a[0] = 10`. -/
theorem round_trip_fails_wide_stride :
    (∀ i, i < ([3] : List Nat).prod → ∀ j, j < ([3] : List Nat).prod →
      physOffset 0 (multiIndex [3] i) [2147483648]
        = physOffset 0 (multiIndex [3] j) [2147483648] → i = j) ∧
    (∀ i, i < ([3] : List Nat).prod →
      physOffset 0 (multiIndex [3] i) [2147483648] < 4294967297) ∧
    (Compact (EwiseSetitem (⟨fun k => (k : Int) + 10, 3⟩ : AlignedArray Int)
        ⟨fun _ => 0, 4294967297⟩ [3] [2147483648] 0) ⟨fun _ => 0, 3⟩ [3] [2147483648] 0).ptr 0
      ≠ (fun k => (k : Int) + 10) 0 := by
  refine ⟨by decide, by decide, by decide⟩

/-! ## Safety of Compact -/

/-- Wrap-around can only lower the offset the inner loop computes. -/
theorem stridedLoop_le (shape strides : List Nat) (j : Nat) (hj : j ≤ shape.length)
    (hj2 : j ≤ strides.length) (src rem : Nat) :
    stridedLoop shape strides j src rem ≤
      src + (List.zipWith (· * ·) (unravelRev (shape.take j).reverse rem)
        (strides.take j).reverse).sum := by
  induction j generalizing src rem with
  | zero => simp [stridedLoop, unravelRev]
  | succ j ih =>
    rw [take_succ_reverse shape j hj, take_succ_reverse strides j hj2]
    simp only [unravelRev, List.zipWith_cons_cons, List.sum_cons]
    show stridedLoop shape strides j _ _ ≤ _
    have h1 := ih (Nat.le_of_lt hj) (Nat.le_of_lt hj2)
      ((src + rem % shape.getD j 0 * strides.getD j 0 % U32) % U64) (rem / shape.getD j 0)
    have h2 : (src + rem % shape.getD j 0 * strides.getD j 0 % U32) % U64
        ≤ src + rem % shape.getD j 0 * strides.getD j 0 :=
      Nat.le_trans (Nat.mod_le _ _) (Nat.add_le_add_left (Nat.mod_le _ _) _)
    omega

/-- The offset the kernels compute never exceeds the physical offset of the
multi-index. -/
theorem stridedOffset_le (shape strides : List Nat) (offset i : Nat)
    (hlen : strides.length = shape.length) :
    stridedOffset shape strides offset i ≤ physOffset offset (multiIndex shape i) strides := by
  have hl : (unravelRev shape.reverse i).length = strides.length := by
    rw [unravelRev_length, List.length_reverse, hlen]
  have key := stridedLoop_le shape strides shape.length (Nat.le_refl _) (Nat.le_of_eq hlen.symm)
    offset i
  rw [List.take_length, List.take_of_length_le (Nat.le_of_eq hlen)] at key
  unfold physOffset multiIndex
  rw [sum_zipWith_reverse _ _ hl]
  exact key

/-- With positive extents and a stride for every dimension no step of the inner loop is
undefined. -/
theorem stridedLoopChecked_eq (shape strides : List Nat) (hpos : ∀ d ∈ shape, 0 < d)
    (j : Nat) (hj : j ≤ shape.length) (hj2 : j ≤ strides.length) (src rem : Nat) :
    stridedLoopChecked shape strides j src rem = some (stridedLoop shape strides j src rem) := by
  induction j generalizing src rem with
  | zero => rfl
  | succ j ih =>
    have e1 : shape[j]? = some (shape.getD j 0) := by
      rw [List.getElem?_eq_getElem hj, List.getD_eq_getElem shape 0 hj]
    have e2 : strides[j]? = some (strides.getD j 0) := by
      rw [List.getElem?_eq_getElem hj2, List.getD_eq_getElem strides 0 hj2]
    have hd : shape.getD j 0 ≠ 0 := by
      have hm : shape.getD j 0 ∈ shape := by
        rw [List.getD_eq_getElem shape 0 hj]
        exact List.getElem_mem _
      exact Nat.pos_iff_ne_zero.mp (hpos _ hm)
    unfold stridedLoopChecked
    rw [e1, e2]
    simp only [hd, if_false]
    rw [ih (Nat.le_of_lt hj) (Nat.le_of_lt hj2)]
    rfl

/-- The components the inner loop computes are those of the multi-index. -/
theorem stridedComponents_eq (shape : List Nat) (j : Nat) (hj : j ≤ shape.length)
    (rem : Nat) :
    stridedComponents shape j rem = unravelRev (shape.take j).reverse rem := by
  induction j generalizing rem with
  | zero => simp [stridedComponents, unravelRev]
  | succ j ih =>
    rw [take_succ_reverse shape j hj]
    simp only [stridedComponents, unravelRev]
    rw [ih (Nat.le_of_lt hj)]

/-- A run of the loop body happens only when every extent is positive. -/
theorem pos_of_lt_shapeCount {shape : List Nat} {i : Nat} (hi : i < shapeCount shape) :
    ∀ d ∈ shape, 0 < d := by
  rw [shapeCount_eq_mod] at hi
  have h0 : 0 < shape.prod := by
    rcases Nat.eq_zero_or_pos shape.prod with h | h
    · rw [h] at hi; simp at hi
    · exact h
  exact prod_pos_of_lt h0

/-- **C19**.  `Compact` is safe under the view invariant: for every shape (a zero extent
and the empty shape included), strides of the same length and offset, if every valid
multi-index has its physical offset below `a.size` and `out.size ≥ Π shape`, then
`Compact` with every access checked completes (no read `a[src]` or store `out[i]` out of
bounds, no modulo or division by a zero extent) with the result of `Compact`, and every
index component the loop computes is below its extent. -/
theorem Compact_safe_under_view_invariant {α : Type} (a out : AlignedArray α)
    (shape strides : List Nat) (offset : Nat) (hlen : strides.length = shape.length)
    (hin : InBounds shape strides offset a.size) (hout : shape.prod ≤ out.size) :
    CompactChecked a out shape strides offset = some (Compact a out shape strides offset) ∧
    ∀ i, i < shapeCount shape →
      List.Forall₂ (· < ·) (stridedComponents shape shape.length i) shape.reverse := by
  have hcount : shapeCount shape ≤ shape.prod := by
    rw [shapeCount_eq_mod]; exact Nat.mod_le _ _
  constructor
  · unfold CompactChecked Compact
    have h := forLoop_sim
      (fun (st : Option (AlignedArray α)) (v : AlignedArray α) =>
        st = some v ∧ v.size = out.size)
      (fun i st => st.bind (fun out =>
        (stridedLoopChecked shape strides shape.length offset i).bind (fun src =>
          if src < a.size ∧ i < out.size then some (out.set i (a.ptr src)) else none)))
      (fun i out => out.set i (a.ptr (stridedOffset shape strides offset i)))
      (shapeCount shape) ?_ (some out) out ⟨rfl, rfl⟩
    · exact h.1
    · intro i hi st v hst
      obtain ⟨hst1, hst2⟩ := hst
      subst hst1
      have hpos := pos_of_lt_shapeCount hi
      have hsrc : stridedOffset shape strides offset i < a.size :=
        Nat.lt_of_le_of_lt (stridedOffset_le shape strides offset i hlen)
          (hin _ (multiIndex_valid shape i hpos))
      have hchk := stridedLoopChecked_eq shape strides hpos shape.length (Nat.le_refl _)
        (Nat.le_of_eq hlen.symm) offset i
      refine ⟨?_, hst2⟩
      show (stridedLoopChecked shape strides shape.length offset i).bind _ = _
      rw [hchk]
      show (if stridedLoop shape strides shape.length offset i < a.size ∧ i < v.size
        then some (v.set i (a.ptr (stridedLoop shape strides shape.length offset i)))
        else none) = _
      rw [if_pos ⟨hsrc, by omega⟩]
      rfl
  · intro i hi
    rw [stridedComponents_eq shape shape.length (Nat.le_refl _) i, List.take_length]
    exact unravelRev_valid _ _
      (fun d hd => pos_of_lt_shapeCount hi d (List.mem_reverse.mp hd))

/-- Witness of **C19**: the transposed view `[2, 3]`/`[1, 2]` over a buffer of `6`
elements, compacted into a buffer of `6` elements. -/
theorem Compact_safe_under_view_invariant_witness :
    ([1, 2] : List Nat).length = [2, 3].length ∧ InBounds [2, 3] [1, 2] 0 6 ∧
    ([2, 3] : List Nat).prod ≤ 6 ∧
    CompactChecked (⟨fun k => (k : Int) + 1, 6⟩ : AlignedArray Int) ⟨fun _ => 0, 6⟩
        [2, 3] [1, 2] 0
      = some (Compact (⟨fun k => (k : Int) + 1, 6⟩ : AlignedArray Int) ⟨fun _ => 0, 6⟩
        [2, 3] [1, 2] 0) :=
  have hin : InBounds [2, 3] [1, 2] 0 6 := by
    intro idx h
    obtain ⟨x, y, rfl, hx, hy⟩ := validIndex_pair idx 2 3 h
    simp only [physOffset, List.zipWith_cons_cons, List.zipWith_nil_left, List.sum_cons,
      List.sum_nil]
    omega
  ⟨by decide, hin, by decide,
    (Compact_safe_under_view_invariant (⟨fun k => (k : Int) + 1, 6⟩ : AlignedArray Int)
      ⟨fun _ => 0, 6⟩ [2, 3] [1, 2] 0 (by decide) hin (by decide)).1⟩

/-! ## The order of accumulation -/

/-- A counted loop is the left-to-right fold over `0, 1, …, n - 1`. -/
theorem forLoop_eq_foldl {σ : Type} (f : Nat → σ → σ) (n : Nat) (s : σ) :
    forLoop f n s = (List.range n).foldl (fun s j => f j s) s := by
  induction n with
  | zero => rfl
  | succ n ih =>
    rw [List.range_succ, List.foldl_append, ← ih]
    rfl

/-- **C20**.  `MatmulTiled` and naive `Matmul` accumulate in the same order: for `m`,
`n`, `p` multiples of `TILE` and any addition and multiplication on the element type
(no associativity or commutativity assumed), the element in row `i` and column `k` is
computed by both as the left-to-right fold, starting from `0`, of the products
`a[i, j] * b[j, k]` for `j = 0, 1, …, n - 1`; naive `Matmul` stores it at `i * p + k`,
`MatmulTiled` at the place of `(i, k)` in the tiled layout, so the tiled result is the
tiled layout of the naive result. -/
theorem MatmulTiled_Matmul_same_fold {α : Type} [Zero α] [Add α] [Mul α]
    (A B At Bt o1 o2 : AlignedArray α) (m n p : Nat)
    (hm : TILE ∣ m) (hn : TILE ∣ n) (hp : TILE ∣ p)
    (hA : IsTiledLayout m n A.ptr At.ptr) (hB : IsTiledLayout n p B.ptr Bt.ptr) :
    (∀ i k, i < m → k < p →
      (Matmul A B o1 m n p).ptr (i * p + k)
        = (List.range n).foldl (fun s j => s + A.ptr (i * n + j) * B.ptr (j * p + k)) 0 ∧
      (MatmulTiled At Bt o2 m n p).ptr
          ((i / TILE * p + k / TILE * TILE) * TILE + (i % TILE * TILE + k % TILE))
        = (List.range n).foldl (fun s j => s + A.ptr (i * n + j) * B.ptr (j * p + k)) 0) ∧
    IsTiledLayout m p (Matmul A B o1 m n p).ptr (MatmulTiled At Bt o2 m n p).ptr := by
  have tiled : ∀ I K ii kk, I < m / TILE → K < p / TILE → ii < TILE → kk < TILE →
      (MatmulTiled At Bt o2 m n p).ptr ((I * p + K * TILE) * TILE + (ii * TILE + kk))
        = forLoop (fun j s => s + A.ptr ((I * TILE + ii) * n + j)
            * B.ptr (j * p + (K * TILE + kk))) n 0 := by
    intro I K ii kk hI hK hii hkk
    rw [MatmulTiled_cell At Bt o2 m n p I K ii kk hI hK hii hkk]
    have hsplit : forLoop (fun j s => s + A.ptr ((I * TILE + ii) * n + j)
          * B.ptr (j * p + (K * TILE + kk))) n 0
        = forLoop (fun j s => s + A.ptr ((I * TILE + ii) * n + j)
          * B.ptr (j * p + (K * TILE + kk))) (n / TILE * TILE) 0 := by
      rw [Nat.div_mul_cancel hn]
    rw [hsplit, forLoop_blocks]
    refine forLoop_congr _ _ (n / TILE) ?_ 0
    intro J hJ s
    refine forLoop_congr _ _ TILE ?_ s
    intro jj hjj s
    show s + At.ptr ((I * n + J * TILE) * TILE + (ii * TILE + jj))
        * Bt.ptr ((J * p + K * TILE) * TILE + (jj * TILE + kk)) = _
    rw [hA I hI J hJ ii hii jj hjj, hB J hJ K hK jj hjj kk hkk]
  constructor
  · intro i k hi hk
    have hT : 0 < TILE := by decide
    have hI : i / TILE < m / TILE := Nat.div_lt_div_of_lt_of_dvd hm hi
    have hK : k / TILE < p / TILE := Nat.div_lt_div_of_lt_of_dvd hp hk
    have hie : i / TILE * TILE + i % TILE = i := by
      rw [Nat.mul_comm]; exact Nat.div_add_mod i TILE
    have hke : k / TILE * TILE + k % TILE = k := by
      rw [Nat.mul_comm]; exact Nat.div_add_mod k TILE
    constructor
    · rw [Matmul_cell A B o1 m n p i k hi hk, forLoop_eq_foldl]
    · rw [tiled (i / TILE) (k / TILE) (i % TILE) (k % TILE) hI hK (Nat.mod_lt _ hT)
        (Nat.mod_lt _ hT), hie, hke, forLoop_eq_foldl]
  · intro I hI K hK ii hii kk hkk
    have hrow : I * TILE + ii < m := by unfold TILE at *; omega
    have hcol : K * TILE + kk < p := by unfold TILE at *; omega
    rw [tiled I K ii kk hI hK hii hkk,
      Matmul_cell A B o1 m n p (I * TILE + ii) (K * TILE + kk) hrow hcol]

/-- Witness of **C20**: an `8 × 16` times a `16 × 8` matrix over the integers,
pre-blocked by `toTiled`. -/
theorem MatmulTiled_Matmul_same_fold_witness :
    TILE ∣ 8 ∧ TILE ∣ 16 ∧
    IsTiledLayout 8 16 (fun q => (q : Int) % 7 - 3) (toTiled 16 (fun q => (q : Int) % 7 - 3)) ∧
    IsTiledLayout 16 8 (fun q => 2 - (q : Int) % 5) (toTiled 8 (fun q => 2 - (q : Int) % 5)) ∧
    IsTiledLayout 8 8
      (Matmul (⟨fun q => (q : Int) % 7 - 3, 128⟩ : AlignedArray Int)
        ⟨fun q => 2 - (q : Int) % 5, 128⟩ ⟨fun _ => 9, 64⟩ 8 16 8).ptr
      (MatmulTiled (⟨toTiled 16 (fun q => (q : Int) % 7 - 3), 128⟩ : AlignedArray Int)
        ⟨toTiled 8 (fun q => 2 - (q : Int) % 5), 128⟩ ⟨fun _ => 5, 64⟩ 8 16 8).ptr :=
  ⟨by decide, by decide, by decide, by decide,
    (MatmulTiled_Matmul_same_fold (⟨fun q => (q : Int) % 7 - 3, 128⟩ : AlignedArray Int)
      ⟨fun q => 2 - (q : Int) % 5, 128⟩ ⟨toTiled 16 (fun q => (q : Int) % 7 - 3), 128⟩
      ⟨toTiled 8 (fun q => 2 - (q : Int) % 5), 128⟩ ⟨fun _ => 9, 64⟩ ⟨fun _ => 5, 64⟩ 8 16 8
      (by decide) (by decide) (by decide) (by decide) (by decide)).2⟩

end Needle
